import Mathlib

/-
Verification of the temporal-table synchronization engine
(`TemporalTable` in `src/ttable.py`, with the older variant in
`src/luigi/ttable.py`).

The embedding mirrors the Python source:

* Python `dict`s (the key cache, id cache and seen-keys dictionary, and the
  row dictionaries themselves) are modelled as association lists with
  Python's semantics: assignment updates an existing key in place, otherwise
  appends; lookup finds the unique binding.
* A source row is such a dictionary from column name to the canonical string
  encoding of its value (`str(value)`, exactly what `_hash` feeds to the
  digest).  A stored row (`VRecord`) carries the surrogate id separately,
  like the `id` primary-key column, plus its column dictionary.
* `_hash` applies sha256 to the concatenation of the encoded values of the
  non-system columns taken in sorted column order.  sha256 is a fixed
  deterministic function, injective on the inputs that occur in practice
  (the spec treats a collision as an unrecoverable corruption, not a
  behaviour to model), so digest equality is modelled by equality of the
  concatenated pre-image, which preserves every comparison the engine makes.
* Dates (`asof`, the `2999-12-31` sentinel) are their ISO string encodings.
* The sink is modelled by the list of stored records: an insert appends
  records with fresh surrogate ids; the close update rewrites `SysEndDate`
  of exactly the rows whose id is in the given list.
-/

namespace TTable

/-- Lexicographic comparison of strings by code point, the order used by
Python's `sorted` on the column names.  Written as structural recursion so
that it evaluates inside the kernel. -/
def lexLe : List Char → List Char → Bool
  | [], _ => true
  | _ :: _, [] => false
  | a :: as, b :: bs =>
      if a.toNat < b.toNat then true
      else if b.toNat < a.toNat then false
      else lexLe as bs

/-- Order on column names used when hashing: `sorted(row.keys())`. -/
def keyOrder (a b : String) : Prop := lexLe a.data b.data = true

instance : DecidableRel keyOrder :=
  fun a b => instDecidableEqBool (lexLe a.data b.data) true

/-- Python-dict lookup: value of the unique binding of the key, if any. -/
def dfind {K V : Type} [DecidableEq K] : List (K × V) → K → Option V
  | [], _ => none
  | p :: m, k => if p.1 = k then some p.2 else dfind m k

/-- Python-dict assignment `m[k] = v`: update the binding in place if the
key is present, otherwise append a new binding. -/
def dput {K V : Type} [DecidableEq K] : List (K × V) → K → V → List (K × V)
  | [], k, v => [(k, v)]
  | p :: m, k, v => if p.1 = k then (k, v) :: m else p :: dput m k v

/-- A row dictionary: column name to canonical string encoding of the value. -/
def Row : Type := List (String × String)

instance : DecidableEq Row := fun a b => List.hasDecEq a b

instance : Append Row := ⟨fun a b => List.append a b⟩

/-- Column names of a row, in dictionary (insertion) order: `row.keys()`. -/
def dkeys {K V : Type} (m : List (K × V)) : List K := m.map Prod.fst

/-- The three system columns excluded from the content hash in `_hash`:
`['id', 'SysStartDate', 'SysEndDate']`. -/
def sysCols : List String := ["id", "SysStartDate", "SysEndDate"]

/-- The sentinel "open" `valid_to` value: `enddate = 2999-12-31`. -/
def enddate : String := "2999-12-31"

/-- Content digest of a row, as computed by `TemporalTable._hash` of
`src/ttable.py`: the values of the columns other than `id`,
`SysStartDate`, `SysEndDate`, taken in sorted column-name order
(`sorted(row.keys())`), encoded and concatenated into the digest input.
Digest equality is modelled by equality of this pre-image (sha256 is
deterministic, and the spec rules out collisions).  The
`src/luigi/ttable.py` variant of `_hash` instead iterates
`set(row.keys())`; see `luigiRowHash`. -/
def rowHash (row : Row) : String :=
  String.join
    ((((dkeys row).insertionSort keyOrder).filter
        (fun c => decide (c ∉ sysCols))).map
      (fun c => (dfind row c).getD ""))

/-- Content digest of a row as computed by `TemporalTable._hash` of
`src/luigi/ttable.py`: the same non-system values, but concatenated in
the iteration order of `set(row.keys())`.  CPython guarantees no
particular order for that set: the realized order is a function of the
key set, of the insertion order (which is the row's presentation order —
when two key strings collide in the set's hash table the first-inserted
one is yielded first) and of the per-process hash seed.  The embedding
therefore takes the realized iteration order — some permutation of the
row's keys — as an explicit argument. -/
def luigiRowHash (order : List String) (row : Row) : String :=
  String.join
    ((order.filter (fun c => decide (c ∉ sysCols))).map
      (fun c => (dfind row c).getD ""))

/-- Natural-key tuple of a row: `_make_search_tuple`, i.e.
`tuple(row[key] for key in natural_key)`. -/
def makeSearchTuple (nk : List String) (row : Row) : List String :=
  nk.map (fun k => (dfind row k).getD "")

/-- A record stored in the target table: the surrogate `id` primary key
plus the column dictionary (business columns and the `SysStartDate` /
`SysEndDate` system columns). -/
structure VRecord where
  id : Nat
  cols : Row
deriving DecidableEq

/-- The full column dictionary of a stored record as the cache-build loop
sees it (`dict(zip(self.table_bound.columns.keys(), row))`), with the `id`
column included. -/
def VRecord.toRow (r : VRecord) : Row := ("id", toString r.id) :: r.cols

/-- A stored record is currently valid when its `SysEndDate` equals the
sentinel. -/
def VRecord.isCurrent (r : VRecord) : Prop :=
  dfind r.cols "SysEndDate" = some enddate

instance (r : VRecord) : Decidable r.isCurrent := by
  unfold VRecord.isCurrent; infer_instance

/-- Natural-key tuple of a stored record. -/
def rtuple (nk : List String) (r : VRecord) : List String :=
  makeSearchTuple nk r.toRow

/-- The two run-scoped cache dictionaries built by `_prefill_cache`:
`keycache` maps a natural-key tuple to the row digest, `idcache` to the
surrogate id. -/
structure Caches where
  keycache : List (List String × String)
  idcache : List (List String × Nat)
deriving DecidableEq

/-- Cache builder loop body: for one scanned row, store its digest and id
under its natural-key tuple (a duplicate tuple silently overwrites the
earlier entry, as Python dict assignment does). -/
def prefillStep (nk : List String) (c : Caches) (r : VRecord) : Caches :=
  let st := rtuple nk r
  { keycache := dput c.keycache st (rowHash r.toRow),
    idcache := dput c.idcache st r.id }

/-- `TemporalTable._prefill_cache` of `src/ttable.py`: iterates
`session.query(self.table_bound)` — the whole table, with no filter on
`SysEndDate` — and fills both caches. -/
def prefillCache (nk : List String) (target : List VRecord) : Caches :=
  target.foldl (prefillStep nk) ⟨[], []⟩

/-- `TemporalTable._prefill_cache` of `src/luigi/ttable.py`: same loop, but
over `select([...]).where(SysEndDate == enddate)` — only the currently
valid slice.  The digest stored per row is modelled with the sorted-order
`rowHash`; the luigi `_hash` actually concatenates in the
runtime-determined iteration order of `set(row.keys())` (see
`luigiRowHash`), which no theorem proved about this definition depends on
(the facts proved here compare no digests). -/
def luigiPrefillCache (nk : List String) (target : List VRecord) : Caches :=
  (target.filter (fun r => decide r.isCurrent)).foldl (prefillStep nk) ⟨[], []⟩

/-- Stamping done at the top of the `_log_changes` loop:
`row['SysStartDate'] = asof; row['SysEndDate'] = enddate`. -/
def stamp (asof : String) (row : Row) : Row :=
  dput (dput row "SysStartDate" asof) "SysEndDate" enddate

/-- Natural-key tuple of a source row as `_log_changes` computes it, after
stamping. -/
def stuple (nk : List String) (asof : String) (row : Row) : List String :=
  makeSearchTuple nk (stamp asof row)

/-- Mutable state threaded through `_log_changes` and the sweep:
`seenkeys`, `obsolete_ids`, the two pending queues, and the list of rows
already flushed to the sink by `_insert` (in flush order). -/
structure LogState where
  seenkeys : List (List String × Nat)
  obsolete_ids : List Nat
  new_rows : List Row
  modified_rows : List Row
  inserted : List Row
deriving DecidableEq

def LogState.init : LogState := ⟨[], [], [], [], []⟩

/-- One iteration of the `_log_changes` loop of `src/ttable.py`: stamp the
row, classify it against the caches (`New` when the tuple is absent from
`idcache`; otherwise `Modified` when the digest differs from `keycache`,
recording the cached id in `obsolete_ids`, else `Unchanged`; in either
cached case record the tuple in `seenkeys`), then flush a pending queue to
the sink when it has reached `chunksize`. -/
def logStep (nk : List String) (asof : String) (chunksize : Nat) (c : Caches)
    (s : LogState) (row0 : Row) : LogState :=
  let row := stamp asof row0
  let st := makeSearchTuple nk row
  let s1 : LogState :=
    match dfind c.idcache st with
    | none => { s with new_rows := s.new_rows ++ [row] }
    | some cid =>
        let s2 : LogState :=
          if dfind c.keycache st ≠ some (rowHash row) then
            { s with modified_rows := s.modified_rows ++ [row],
                     obsolete_ids := s.obsolete_ids ++ [cid] }
          else s
        { s2 with seenkeys := dput s2.seenkeys st cid }
  let s3 : LogState :=
    if chunksize ≤ s1.new_rows.length then
      { s1 with inserted := s1.inserted ++ s1.new_rows, new_rows := [] }
    else s1
  if chunksize ≤ s3.modified_rows.length then
    { s3 with inserted := s3.inserted ++ s3.modified_rows, modified_rows := [] }
  else s3

/-- `TemporalTable._log_changes`: the classification loop followed by the
final flush of any non-empty remainder of the two queues. -/
def logChanges (nk : List String) (asof : String) (chunksize : Nat)
    (c : Caches) (rows : List Row) : LogState :=
  let s := rows.foldl (logStep nk asof chunksize c) LogState.init
  let s4 : LogState :=
    if s.new_rows ≠ [] then
      { s with inserted := s.inserted ++ s.new_rows, new_rows := [] }
    else s
  if s4.modified_rows ≠ [] then
    { s4 with inserted := s4.inserted ++ s4.modified_rows, modified_rows := [] }
  else s4

/-- Surrogate-id assignment performed by the sink on insert: each flushed
row becomes a stored record with the next fresh id. -/
def assignIds (startId : Nat) : List Row → List VRecord
  | [] => []
  | row :: rest => ⟨startId, row⟩ :: assignIds (startId + 1) rest

/-- `TemporalTable._set_as_obsolete`: the batched
`UPDATE ... SET SysEndDate = asof WHERE id = _id` over the given ids. -/
def setAsObsolete (asof : String) (ids : List Nat) (t : List VRecord) :
    List VRecord :=
  t.map (fun r =>
    if r.id ∈ ids then { r with cols := dput r.cols "SysEndDate" asof } else r)

/-- The ids appended by the deleted-rows check in `run`:
`for key, id in idcache.items(): if key not in seenkeys: append(id)`. -/
def unseenIds (c : Caches) (seen : List (List String × Nat)) : List Nat :=
  (c.idcache.filter (fun p => decide (dfind seen p.1 = none))).map Prod.snd

/-- Observable outcome of one `run`. -/
structure RunResult where
  finalTarget : List VRecord
  insertedRecords : List VRecord
  closeIds : List Nat
  closeIssued : Bool
  state : LogState
  caches : Caches

/-- `TemporalTable.run` of `src/ttable.py`: build the caches, reconcile the
source rows (inserting pending chunks), extend `obsolete_ids` with the
unseen cached ids when `obsolete_deleted_rows` is set, and issue the close
update only when `obsolete_ids` is non-empty.  `startId` is the first
surrogate id the sink will assign. -/
def runTT (nk : List String) (asof : String) (chunksize : Nat)
    (obsolete_deleted_rows : Bool) (startId : Nat)
    (target : List VRecord) (source : List Row) : RunResult :=
  let c := prefillCache nk target
  let s := logChanges nk asof chunksize c source
  let ins := assignIds startId s.inserted
  let afterInsert := target ++ ins
  let closeIds :=
    if obsolete_deleted_rows then s.obsolete_ids ++ unseenIds c s.seenkeys
    else s.obsolete_ids
  let final :=
    if closeIds = [] then afterInsert else setAsObsolete asof closeIds afterInsert
  ⟨final, ins, closeIds, decide (closeIds ≠ []), s, c⟩

/-- `TemporalTable.run` of `src/luigi/ttable.py`: the cache build filters
on `SysEndDate = enddate`, but the whole obsolescence block — including the
`_set_as_obsolete` call for the ids collected from Modified rows — is
nested under `if self.obsolete_deleted_rows:`, so nothing is ever closed
when the flag is off.  (The luigi variant drains the source in
`chunk_size` batches before calling `_log_changes`; the resulting flush
granularity does not affect any field recorded here.  Digest comparisons
are modelled with the sorted-order `rowHash` rather than luigi's
set-iteration-order `_hash` — see `luigiRowHash`; the Modified/Unchanged
verdicts proved about this definition are insensitive to the value
ordering, since the compared payload value multisets differ.) -/
def luigiRun (nk : List String) (asof : String) (chunksize : Nat)
    (obsolete_deleted_rows : Bool) (startId : Nat)
    (target : List VRecord) (source : List Row) : RunResult :=
  let c := luigiPrefillCache nk target
  let s := logChanges nk asof chunksize c source
  let ins := assignIds startId s.inserted
  let afterInsert := target ++ ins
  if obsolete_deleted_rows then
    let closeIds := s.obsolete_ids ++ unseenIds c s.seenkeys
    if closeIds = [] then ⟨afterInsert, ins, closeIds, false, s, c⟩
    else ⟨setAsObsolete asof closeIds afterInsert, ins, closeIds, true, s, c⟩
  else ⟨afterInsert, ins, [], false, s, c⟩

/-- Classification predicate: the row is New (its stamped tuple misses the
id cache). -/
def isNewRow (nk : List String) (asof : String) (c : Caches) (row : Row) :
    Bool :=
  (dfind c.idcache (stuple nk asof row)).isNone

/-- Classification predicate: the row is Modified (cached, digest differs). -/
def isModRow (nk : List String) (asof : String) (c : Caches) (row : Row) :
    Bool :=
  match dfind c.idcache (stuple nk asof row) with
  | none => false
  | some _ =>
      decide (dfind c.keycache (stuple nk asof row) ≠
        some (rowHash (stamp asof row)))

/-- The cached surrogate id a Modified row queues for closing, if any. -/
def modClose (nk : List String) (asof : String) (c : Caches) (row : Row) :
    Option Nat :=
  match dfind c.idcache (stuple nk asof row) with
  | none => none
  | some cid =>
      if dfind c.keycache (stuple nk asof row) ≠
          some (rowHash (stamp asof row)) then some cid
      else none

/-- All rows a `LogState` has routed toward the sink: the chunks already
flushed by `_insert` plus whatever is still pending in either queue. -/
def pendingRows (s : LogState) : List Row :=
  s.inserted ++ s.new_rows ++ s.modified_rows

/-- The stamped rows `_log_changes` classifies as New or Modified, in
source order: exactly the rows it routes to the sink. -/
def queuedRows (nk : List String) (asof : String) (c : Caches)
    (rows : List Row) : List Row :=
  (rows.filter
    (fun row => isNewRow nk asof c row || isModRow nk asof c row)).map
    (stamp asof)

/-- Wellformedness of an incoming source row: its column names are unique
(it is a Python dict) and none of them is a system column (the system
columns are added by the engine itself). -/
def wfRow (row : Row) : Prop :=
  (dkeys row).Nodup ∧ ∀ c ∈ dkeys row, c ∉ sysCols

instance (row : Row) : Decidable (wfRow row) := by
  unfold wfRow; infer_instance

/-- Number of currently valid records holding a given natural-key tuple. -/
def currentCount (nk : List String) (k : List String)
    (t : List VRecord) : Nat :=
  t.countP (fun r => decide (r.isCurrent ∧ rtuple nk r = k))

theorem lexLe_total (x y : List Char) : lexLe x y = true ∨ lexLe y x = true := by
  induction x generalizing y with
  | nil => left; rfl
  | cons a as ih =>
    cases y with
    | nil => right; rfl
    | cons b bs =>
      simp only [lexLe]
      rcases Nat.lt_trichotomy a.toNat b.toNat with h | h | h
      · left; simp [h]
      · have h1 : ¬ a.toNat < b.toNat := by omega
        have h2 : ¬ b.toNat < a.toNat := by omega
        simpa [h1, h2] using ih bs
      · right; simp [h, Nat.not_lt.mpr (Nat.le_of_lt h)]

theorem lexLe_trans {x y z : List Char} (hxy : lexLe x y = true)
    (hyz : lexLe y z = true) : lexLe x z = true := by
  induction x generalizing y z with
  | nil => rfl
  | cons a as ih =>
    cases y with
    | nil => simp [lexLe] at hxy
    | cons b bs =>
      cases z with
      | nil => simp [lexLe] at hyz
      | cons c cs =>
        simp only [lexLe] at hxy hyz ⊢
        rcases Nat.lt_trichotomy a.toNat b.toNat with h1 | h1 | h1 <;>
          rcases Nat.lt_trichotomy b.toNat c.toNat with h2 | h2 | h2
        · simp [show a.toNat < c.toNat by omega]
        · simp [show a.toNat < c.toNat by omega]
        · simp [show ¬ b.toNat < c.toNat by omega, h2] at hyz
        · simp [show a.toNat < c.toNat by omega]
        · have hxy2 : lexLe as bs = true := by
            simpa [show ¬ a.toNat < b.toNat by omega,
              show ¬ b.toNat < a.toNat by omega] using hxy
          have hyz2 : lexLe bs cs = true := by
            simpa [show ¬ b.toNat < c.toNat by omega,
              show ¬ c.toNat < b.toNat by omega] using hyz
          simpa [show ¬ a.toNat < c.toNat by omega,
            show ¬ c.toNat < a.toNat by omega] using ih hxy2 hyz2
        · simp [show ¬ b.toNat < c.toNat by omega, h2] at hyz
        · simp [show ¬ a.toNat < b.toNat by omega, h1] at hxy
        · simp [show ¬ a.toNat < b.toNat by omega, h1] at hxy
        · simp [show ¬ a.toNat < b.toNat by omega, h1] at hxy

theorem char_eq_of_toNat_eq {a b : Char} (h : a.toNat = b.toNat) : a = b :=
  Char.ext (UInt32.toNat.inj h)

theorem lexLe_antisymm {x y : List Char} (hxy : lexLe x y = true)
    (hyx : lexLe y x = true) : x = y := by
  induction x generalizing y with
  | nil =>
    cases y with
    | nil => rfl
    | cons b bs => simp [lexLe] at hyx
  | cons a as ih =>
    cases y with
    | nil => simp [lexLe] at hxy
    | cons b bs =>
      simp only [lexLe] at hxy hyx
      rcases Nat.lt_trichotomy a.toNat b.toNat with h1 | h1 | h1
      · simp [show ¬ b.toNat < a.toNat by omega, h1] at hyx
      · have hxy2 : lexLe as bs = true := by
          simpa [show ¬ a.toNat < b.toNat by omega,
            show ¬ b.toNat < a.toNat by omega] using hxy
        have hyx2 : lexLe bs as = true := by
          simpa [show ¬ a.toNat < b.toNat by omega,
            show ¬ b.toNat < a.toNat by omega] using hyx
        rw [char_eq_of_toNat_eq h1, ih hxy2 hyx2]
      · simp [show ¬ a.toNat < b.toNat by omega, h1] at hxy

instance : IsTotal String keyOrder :=
  ⟨fun a b => lexLe_total a.data b.data⟩

instance : IsTrans String keyOrder :=
  ⟨fun _ _ _ hab hbc => lexLe_trans hab hbc⟩

instance : IsAntisymm String keyOrder := by
  refine ⟨fun a b hab hba => ?_⟩
  have h := lexLe_antisymm hab hba
  cases a; cases b; exact congrArg String.mk h

theorem dfind_dput {K V : Type} [DecidableEq K] (m : List (K × V))
    (k k' : K) (v : V) :
    dfind (dput m k v) k' = if k' = k then some v else dfind m k' := by
  induction m with
  | nil =>
    by_cases h : k' = k
    · subst h; simp [dput, dfind]
    · have h2 : ¬ (k : K) = k' := fun hh => h hh.symm
      simp [dput, dfind, h, h2]
  | cons p m ih =>
    by_cases h1 : p.1 = k
    · by_cases h2 : k' = k
      · subst h2; simp [dput, dfind, h1]
      · have hne : ¬ (k : K) = k' := fun hh => h2 hh.symm
        have hpk : ¬ p.1 = k' := by rw [h1]; exact hne
        simp [dput, dfind, h1, h2, hne, hpk]
    · by_cases h2 : k' = k
      · subst h2
        simp [dput, dfind, h1, ih]
      · simp [dput, dfind, h1, h2, ih]

theorem dfind_eq_none_iff {K V : Type} [DecidableEq K]
    (m : List (K × V)) (k : K) :
    dfind m k = none ↔ ∀ p ∈ m, p.1 ≠ k := by
  induction m with
  | nil => simp [dfind]
  | cons p m ih =>
    by_cases h : p.1 = k <;> simp [dfind, h, ih]

theorem mem_of_dfind_eq_some {K V : Type} [DecidableEq K]
    {m : List (K × V)} {k : K} {v : V} (h : dfind m k = some v) :
    (k, v) ∈ m := by
  induction m with
  | nil => simp [dfind] at h
  | cons p m ih =>
    by_cases hp : p.1 = k
    · simp only [dfind, if_pos hp] at h
      obtain ⟨k0, v0⟩ := p
      obtain rfl : k0 = k := hp
      obtain rfl : v0 = v := Option.some.inj h
      exact List.mem_cons_self _ _
    · simp only [dfind, if_neg hp] at h
      exact List.mem_cons_of_mem _ (ih h)

theorem mem_dput {K V : Type} [DecidableEq K] {m : List (K × V)}
    {k : K} {v : V} {p : K × V} (h : p ∈ dput m k v) :
    p ∈ m ∨ p = (k, v) := by
  induction m with
  | nil => simp [dput] at h; right; exact h
  | cons q m ih =>
    by_cases hq : q.1 = k
    · simp only [dput, if_pos hq] at h
      rcases List.mem_cons.mp h with h | h
      · right; exact h
      · left; exact List.mem_cons_of_mem _ h
    · simp only [dput, if_neg hq] at h
      rcases List.mem_cons.mp h with h | h
      · left; exact h ▸ List.mem_cons_self _ _
      · rcases ih h with h | h
        · left; exact List.mem_cons_of_mem _ h
        · right; exact h

theorem dkeys_dput {K V : Type} [DecidableEq K] (m : List (K × V))
    (k : K) (v : V) :
    dkeys (dput m k v) = if k ∈ dkeys m then dkeys m else dkeys m ++ [k] := by
  induction m with
  | nil => simp [dput, dkeys]
  | cons p m ih =>
    by_cases hp : p.1 = k
    · rw [show dput (p :: m) k v = (k, v) :: m by simp [dput, hp]]
      rw [if_pos (by exact List.mem_cons.mpr (Or.inl hp.symm))]
      show k :: dkeys m = p.1 :: dkeys m
      rw [hp]
    · rw [show dput (p :: m) k v = p :: dput m k v by simp [dput, hp]]
      show p.1 :: dkeys (dput m k v) = _
      rw [show dkeys (p :: m) = p.1 :: dkeys m from rfl]
      by_cases hm : k ∈ dkeys m
      · rw [if_pos (List.mem_cons_of_mem _ hm), ih, if_pos hm]
      · have hcond : ¬ k ∈ p.1 :: dkeys m := by
          intro hcc
          rcases List.mem_cons.mp hcc with hcc | hcc
          · exact hp hcc.symm
          · exact hm hcc
        rw [if_neg hcond, ih, if_neg hm, List.cons_append]

theorem dkeys_nodup_dput {K V : Type} [DecidableEq K] {m : List (K × V)}
    (h : (dkeys m).Nodup) (k : K) (v : V) : (dkeys (dput m k v)).Nodup := by
  rw [dkeys_dput]
  by_cases hm : k ∈ dkeys m
  · simpa [hm]
  · simp only [hm, if_false]
    refine List.Nodup.append h (List.nodup_singleton k) ?_
    intro a ha hak
    rw [List.mem_singleton] at hak
    subst hak
    exact hm ha

theorem dfind_eq_some_of_mem {K V : Type} [DecidableEq K]
    {m : List (K × V)} {k : K} {v : V} (hnd : (dkeys m).Nodup)
    (h : (k, v) ∈ m) : dfind m k = some v := by
  induction m with
  | nil => simp at h
  | cons p m ih =>
    obtain ⟨k0, v0⟩ := p
    rcases List.mem_cons.mp h with h1 | h1
    · injection h1 with hk hv
      subst hk; subst hv
      simp [dfind]
    · have hkm : k ∈ dkeys m := List.mem_map.mpr ⟨(k, v), h1, rfl⟩
      have hnd2 : k0 ∉ dkeys m ∧ (dkeys m).Nodup := by
        simpa [dkeys] using hnd
      have hne : ¬ (k0 : K) = k := fun hh => hnd2.1 (hh ▸ hkm)
      simp only [dfind, if_neg hne]
      exact ih hnd2.2 h1

theorem dfind_isSome_iff {K V : Type} [DecidableEq K]
    (m : List (K × V)) (k : K) :
    (dfind m k).isSome = true ↔ k ∈ dkeys m := by
  induction m with
  | nil => simp [dfind, dkeys]
  | cons p m ih =>
    show (if p.1 = k then some p.2 else dfind m k).isSome = true ↔
      k ∈ p.1 :: dkeys m
    by_cases h : p.1 = k
    · simp [h]
    · simp only [if_neg h, List.mem_cons, ih]
      constructor
      · exact Or.inr
      · rintro (hh | hh)
        · exact absurd hh.symm h
        · exact hh

theorem mem_dkeys_dput {K V : Type} [DecidableEq K] (m : List (K × V))
    (k k' : K) (v : V) :
    k' ∈ dkeys (dput m k v) ↔ k' ∈ dkeys m ∨ k' = k := by
  rw [dkeys_dput]
  by_cases hm : k ∈ dkeys m
  · simp only [if_pos hm]
    constructor
    · exact Or.inl
    · rintro (h | rfl)
      · exact h
      · exact hm
  · simp [if_neg hm]

/-- Key congruence for the row digest: two row dictionaries that bind every
non-system column identically (system columns may be absent or bound to
anything) hash to the same digest, because `_hash` sorts the column names
and drops the system columns before concatenating the encoded values. -/
theorem rowHash_congr {r1 r2 : Row} (h1 : (dkeys r1).Nodup)
    (h2 : (dkeys r2).Nodup)
    (h : ∀ c, c ∉ sysCols → dfind r1 c = dfind r2 c) :
    rowHash r1 = rowHash r2 := by
  unfold rowHash
  have hperm1 := List.perm_insertionSort keyOrder (dkeys r1)
  have hperm2 := List.perm_insertionSort keyOrder (dkeys r2)
  have nd1 : (((dkeys r1).insertionSort keyOrder).filter
      (fun c => decide (c ∉ sysCols))).Nodup :=
    List.Nodup.filter _ (hperm1.symm.nodup h1)
  have nd2 : (((dkeys r2).insertionSort keyOrder).filter
      (fun c => decide (c ∉ sysCols))).Nodup :=
    List.Nodup.filter _ (hperm2.symm.nodup h2)
  have hsort1 : List.Sorted keyOrder (((dkeys r1).insertionSort
      keyOrder).filter (fun c => decide (c ∉ sysCols))) :=
    List.Pairwise.sublist (List.filter_sublist _)
      (List.sorted_insertionSort keyOrder (dkeys r1))
  have hsort2 : List.Sorted keyOrder (((dkeys r2).insertionSort
      keyOrder).filter (fun c => decide (c ∉ sysCols))) :=
    List.Pairwise.sublist (List.filter_sublist _)
      (List.sorted_insertionSort keyOrder (dkeys r2))
  have hmem : ∀ c, (c ∈ ((dkeys r1).insertionSort keyOrder).filter
      (fun c => decide (c ∉ sysCols))) ↔
      (c ∈ ((dkeys r2).insertionSort keyOrder).filter
        (fun c => decide (c ∉ sysCols))) := by
    intro c
    by_cases hcs : c ∈ sysCols
    · simp [List.mem_filter, hcs]
    · rw [List.mem_filter, List.mem_filter, hperm1.mem_iff, hperm2.mem_iff]
      have hd : decide (c ∉ sysCols) = true := by simpa using hcs
      rw [hd]
      simp only [and_true]
      rw [← dfind_isSome_iff, ← dfind_isSome_iff, h c hcs]
  have hK : ((dkeys r1).insertionSort keyOrder).filter
      (fun c => decide (c ∉ sysCols)) =
      ((dkeys r2).insertionSort keyOrder).filter
        (fun c => decide (c ∉ sysCols)) :=
    List.eq_of_perm_of_sorted
      ((List.perm_ext_iff_of_nodup nd1 nd2).mpr hmem) hsort1 hsort2
  rw [hK]
  refine congrArg String.join (List.map_congr_left ?_)
  intro c hc
  have hcs : c ∉ sysCols := by
    have := (List.mem_filter.mp hc).2
    simpa using this
  rw [h c hcs]

theorem dfind_stamp_end (asof : String) (row : Row) :
    dfind (stamp asof row) "SysEndDate" = some enddate := by
  unfold stamp
  rw [dfind_dput]
  simp

theorem dfind_stamp_start (asof : String) (row : Row) :
    dfind (stamp asof row) "SysStartDate" = some asof := by
  unfold stamp
  rw [dfind_dput, if_neg (by decide), dfind_dput, if_pos rfl]

theorem dfind_stamp_of_ne (asof : String) (row : Row) {c : String}
    (h1 : c ≠ "SysStartDate") (h2 : c ≠ "SysEndDate") :
    dfind (stamp asof row) c = dfind row c := by
  unfold stamp
  rw [dfind_dput, if_neg h2, dfind_dput, if_neg h1]

theorem dkeys_stamp_nodup {row : Row} (h : (dkeys row).Nodup)
    (asof : String) : (dkeys (stamp asof row)).Nodup :=
  dkeys_nodup_dput (dkeys_nodup_dput h _ _) _ _

theorem id_notMem_dkeys_stamp {row : Row} (h : "id" ∉ dkeys row)
    (asof : String) : "id" ∉ dkeys (stamp asof row) := by
  unfold stamp
  intro hmem
  rcases (mem_dkeys_dput _ _ _ _).mp hmem with hmem | hmem
  · rcases (mem_dkeys_dput _ _ _ _).mp hmem with hmem | hmem
    · exact h hmem
    · exact absurd hmem (by decide)
  · exact absurd hmem (by decide)

theorem dfind_toRow_of_ne (r : VRecord) {c : String} (h : c ≠ "id") :
    dfind r.toRow c = dfind r.cols c := by
  unfold VRecord.toRow
  rw [dfind]
  rw [if_neg (fun hh => h hh.symm)]

/-- The digest the cache will hold for a freshly inserted record equals the
digest computed for the stamped source row it came from: the extra `id`
column the stored row carries is a system column and is dropped by the
hash. -/
theorem recordHash_insert {row : Row} (hnd : (dkeys row).Nodup)
    (hid : "id" ∉ dkeys row) (asof : String) (i : Nat) :
    rowHash (VRecord.mk i (stamp asof row)).toRow =
      rowHash (stamp asof row) := by
  refine rowHash_congr ?_ (dkeys_stamp_nodup hnd asof) ?_
  · show (("id" : String) :: dkeys (stamp asof row)).Nodup
    exact List.nodup_cons.mpr ⟨id_notMem_dkeys_stamp hid asof,
      dkeys_stamp_nodup hnd asof⟩
  · intro c hcs
    exact dfind_toRow_of_ne _ (fun hc => hcs (by rw [hc]; decide))

/-- Natural-key tuple of a stored record, computed over the full column
dictionary including `id`, agrees with the tuple of its column dictionary
as long as no natural-key column is a system column. -/
theorem rtuple_mk (nk : List String) (hk : ∀ k ∈ nk, k ∉ sysCols)
    (i : Nat) (cols : Row) :
    rtuple nk (VRecord.mk i cols) = makeSearchTuple nk cols := by
  unfold rtuple makeSearchTuple
  refine List.map_congr_left ?_
  intro k hkmem
  rw [dfind_toRow_of_ne _ (fun hc => hk k hkmem (by rw [hc]; decide))]

/-- Closing a record (rewriting `SysEndDate`) does not change its
natural-key tuple. -/
theorem rtuple_close (nk : List String) (hk : ∀ k ∈ nk, k ∉ sysCols)
    (r : VRecord) (asof : String) :
    rtuple nk { r with cols := dput r.cols "SysEndDate" asof } =
      rtuple nk r := by
  unfold rtuple makeSearchTuple
  refine List.map_congr_left ?_
  intro k hkmem
  have hne : k ≠ "id" := fun hc => hk k hkmem (by rw [hc]; decide)
  have hne2 : k ≠ "SysEndDate" := fun hc => hk k hkmem (by rw [hc]; decide)
  have heq : dfind ({ r with cols := dput r.cols "SysEndDate" asof } :
      VRecord).toRow k = dfind r.toRow k := by
    rw [dfind_toRow_of_ne _ hne, dfind_toRow_of_ne _ hne]
    show dfind (dput r.cols "SysEndDate" asof) k = dfind r.cols k
    rw [dfind_dput, if_neg hne2]
  rw [heq]

/-- The natural-key tuple `_log_changes` computes for a source row (after
stamping) agrees with the tuple of the record the sink will store for it. -/
theorem rtuple_assign (nk : List String) (hk : ∀ k ∈ nk, k ∉ sysCols)
    (asof : String) (i : Nat) (row : Row) :
    rtuple nk (VRecord.mk i (stamp asof row)) = stuple nk asof row :=
  rtuple_mk nk hk i (stamp asof row)

theorem logStep_obsolete (nk : List String) (asof : String) (cs : Nat)
    (c : Caches) (s : LogState) (row0 : Row) :
    (logStep nk asof cs c s row0).obsolete_ids =
      s.obsolete_ids ++ (modClose nk asof c row0).toList := by
  unfold logStep modClose stuple
  cases h : dfind c.idcache (makeSearchTuple nk (stamp asof row0)) with
  | none => simp only [h]; split_ifs <;> simp
  | some cid =>
    simp only [h]
    split_ifs <;> simp_all

theorem logStep_seen (nk : List String) (asof : String) (cs : Nat)
    (c : Caches) (s : LogState) (row0 : Row) (k : List String) :
    dfind (logStep nk asof cs c s row0).seenkeys k =
      match dfind c.idcache (stuple nk asof row0) with
      | none => dfind s.seenkeys k
      | some cid =>
          if k = stuple nk asof row0 then some cid else dfind s.seenkeys k := by
  unfold logStep stuple
  cases h : dfind c.idcache (makeSearchTuple nk (stamp asof row0)) with
  | none => simp only [h]; split_ifs <;> simp
  | some cid =>
    simp only [h]
    split_ifs <;> simp_all [dfind_dput]

theorem logStep_pending (nk : List String) (asof : String) (cs : Nat)
    (c : Caches) (s : LogState) (row0 : Row) (a : Row) :
    (pendingRows (logStep nk asof cs c s row0)).count a =
      (pendingRows s ++
        (if isNewRow nk asof c row0 || isModRow nk asof c row0 then
          [stamp asof row0] else [])).count a := by
  unfold logStep isNewRow isModRow stuple
  cases h : dfind c.idcache (makeSearchTuple nk (stamp asof row0)) with
  | none =>
    simp only [h]
    by_cases h1 : cs ≤ s.new_rows.length + 1 <;>
      by_cases h2 : cs ≤ s.modified_rows.length <;>
        simp [pendingRows, h1, h2, List.count_append, List.count_cons] <;>
          omega
  | some cid =>
    simp only [h]
    by_cases hm : dfind c.keycache (makeSearchTuple nk (stamp asof row0)) =
        some (rowHash (stamp asof row0))
    · by_cases h1 : cs ≤ s.new_rows.length <;>
        by_cases h2 : cs ≤ s.modified_rows.length <;>
          simp [pendingRows, hm, h1, h2, List.count_append,
            List.count_cons] <;> omega
    · by_cases h1 : cs ≤ s.new_rows.length <;>
        by_cases h2 : cs ≤ s.modified_rows.length + 1 <;>
          simp [pendingRows, hm, h1, h2, List.count_append,
            List.count_cons] <;> omega

theorem foldl_logStep_obsolete (nk : List String) (asof : String) (cs : Nat)
    (c : Caches) (rows : List Row) (s : LogState) :
    (rows.foldl (logStep nk asof cs c) s).obsolete_ids =
      s.obsolete_ids ++ rows.filterMap (modClose nk asof c) := by
  induction rows generalizing s with
  | nil => simp
  | cons row rows ih =>
    rw [List.foldl_cons, ih, logStep_obsolete, List.filterMap_cons]
    cases h : modClose nk asof c row <;> simp [h]

theorem foldl_logStep_seen (nk : List String) (asof : String) (cs : Nat)
    (c : Caches) (rows : List Row) (s : LogState) (k : List String) :
    dfind (rows.foldl (logStep nk asof cs c) s).seenkeys k =
      if rows.any (fun row => decide (k = stuple nk asof row) &&
          (dfind c.idcache k).isSome)
      then dfind c.idcache k
      else dfind s.seenkeys k := by
  induction rows generalizing s with
  | nil => simp
  | cons row rows ih =>
    rw [List.foldl_cons, ih, List.any_cons]
    cases hrest : rows.any (fun row => decide (k = stuple nk asof row) &&
        (dfind c.idcache k).isSome) with
    | true => simp [hrest]
    | false =>
      simp only [hrest, Bool.or_false]
      rw [logStep_seen]
      by_cases hk : k = stuple nk asof row
      · subst hk
        cases h : dfind c.idcache (stuple nk asof row) with
        | none => simp [h]
        | some cid => simp [h]
      · cases h : dfind c.idcache (stuple nk asof row) with
        | none => simp [h, hk]
        | some cid => simp [h, hk]

theorem foldl_logStep_pending (nk : List String) (asof : String) (cs : Nat)
    (c : Caches) (rows : List Row) (s : LogState) (a : Row) :
    (pendingRows (rows.foldl (logStep nk asof cs c) s)).count a =
      (pendingRows s ++ queuedRows nk asof c rows).count a := by
  induction rows generalizing s with
  | nil => simp [queuedRows]
  | cons row rows ih =>
    rw [List.foldl_cons, ih, List.count_append, logStep_pending]
    unfold queuedRows
    rw [List.filter_cons]
    by_cases h : (isNewRow nk asof c row || isModRow nk asof c row) = true <;>
      simp [h, List.count_append, List.count_cons] <;> omega

theorem init_seenkeys : LogState.init.seenkeys = [] := rfl

theorem init_obsolete : LogState.init.obsolete_ids = [] := rfl

theorem init_new : LogState.init.new_rows = [] := rfl

theorem init_modified : LogState.init.modified_rows = [] := rfl

theorem init_inserted : LogState.init.inserted = [] := rfl

theorem logChanges_queues (nk : List String) (asof : String) (cs : Nat)
    (c : Caches) (rows : List Row) :
    (logChanges nk asof cs c rows).new_rows = [] ∧
    (logChanges nk asof cs c rows).modified_rows = [] := by
  unfold logChanges
  by_cases h1 : (rows.foldl (logStep nk asof cs c) LogState.init).new_rows
      = [] <;>
    by_cases h2 : (rows.foldl (logStep nk asof cs c)
        LogState.init).modified_rows = [] <;>
      simp [h1, h2]

theorem logChanges_obsolete (nk : List String) (asof : String) (cs : Nat)
    (c : Caches) (rows : List Row) :
    (logChanges nk asof cs c rows).obsolete_ids =
      rows.filterMap (modClose nk asof c) := by
  unfold logChanges
  by_cases h1 : (rows.foldl (logStep nk asof cs c) LogState.init).new_rows
      = [] <;>
    by_cases h2 : (rows.foldl (logStep nk asof cs c)
        LogState.init).modified_rows = [] <;>
      simp [h1, h2, foldl_logStep_obsolete, init_obsolete]

theorem logChanges_seen (nk : List String) (asof : String) (cs : Nat)
    (c : Caches) (rows : List Row) (k : List String) :
    dfind (logChanges nk asof cs c rows).seenkeys k =
      if rows.any (fun row => decide (k = stuple nk asof row) &&
          (dfind c.idcache k).isSome)
      then dfind c.idcache k
      else none := by
  unfold logChanges
  by_cases h1 : (rows.foldl (logStep nk asof cs c) LogState.init).new_rows
      = [] <;>
    by_cases h2 : (rows.foldl (logStep nk asof cs c)
        LogState.init).modified_rows = [] <;>
      by_cases h3 : (rows.any (fun row => decide (k = stuple nk asof row) &&
          (dfind c.idcache k).isSome)) = true <;>
        simp [h1, h2, h3, foldl_logStep_seen, init_seenkeys, dfind]

theorem logChanges_inserted_count (nk : List String) (asof : String)
    (cs : Nat) (c : Caches) (rows : List Row) (a : Row) :
    (logChanges nk asof cs c rows).inserted.count a =
      (queuedRows nk asof c rows).count a := by
  have hfold := foldl_logStep_pending nk asof cs c rows LogState.init a
  simp only [pendingRows, init_inserted, init_new, init_modified,
    List.count_append, List.append_nil, List.nil_append, List.count_nil,
    Nat.zero_add] at hfold
  unfold logChanges
  by_cases h1 : (rows.foldl (logStep nk asof cs c) LogState.init).new_rows
      = [] <;>
    by_cases h2 : (rows.foldl (logStep nk asof cs c)
        LogState.init).modified_rows = [] <;>
      simp [h1, h2, List.count_append] at hfold ⊢ <;> omega

theorem logChanges_inserted_nil (nk : List String) (asof : String)
    (cs : Nat) (c : Caches) (rows : List Row)
    (h : queuedRows nk asof c rows = []) :
    (logChanges nk asof cs c rows).inserted = [] := by
  refine List.eq_nil_iff_forall_not_mem.mpr ?_
  intro a ha
  have hc := logChanges_inserted_count nk asof cs c rows a
  rw [h, List.count_nil] at hc
  have hpos : 0 < (logChanges nk asof cs c rows).inserted.count a :=
    List.count_pos_iff.mpr ha
  omega

theorem prefill_foldl_find (nk : List String) (t : List VRecord)
    (m : Caches) (k : List String) :
    dfind (t.foldl (prefillStep nk) m).idcache k =
      (match t.reverse.find? (fun r => decide (rtuple nk r = k)) with
       | some r => some r.id
       | none => dfind m.idcache k) ∧
    dfind (t.foldl (prefillStep nk) m).keycache k =
      (match t.reverse.find? (fun r => decide (rtuple nk r = k)) with
       | some r => some (rowHash r.toRow)
       | none => dfind m.keycache k) := by
  induction t generalizing m with
  | nil => simp
  | cons r t ih =>
    rw [List.foldl_cons]
    obtain ⟨ih1, ih2⟩ := ih (prefillStep nk m r)
    rw [List.reverse_cons, List.find?_append]
    constructor
    · rw [ih1]
      cases hf : t.reverse.find? (fun r => decide (rtuple nk r = k)) with
      | some r2 => simp
      | none =>
        simp only [Option.none_or]
        unfold prefillStep
        by_cases hk : rtuple nk r = k
        · simp [hk, dfind_dput, List.find?]
        · have hk2 : ¬ k = rtuple nk r := fun hh => hk hh.symm
          simp [hk, hk2, dfind_dput, List.find?]
    · rw [ih2]
      cases hf : t.reverse.find? (fun r => decide (rtuple nk r = k)) with
      | some r2 => simp
      | none =>
        simp only [Option.none_or]
        unfold prefillStep
        by_cases hk : rtuple nk r = k
        · simp [hk, dfind_dput, List.find?]
        · have hk2 : ¬ k = rtuple nk r := fun hh => hk hh.symm
          simp [hk, hk2, dfind_dput, List.find?]

theorem prefill_idcache_eq (nk : List String) (t : List VRecord)
    (k : List String) :
    dfind (prefillCache nk t).idcache k =
      (t.reverse.find? (fun r => decide (rtuple nk r = k))).map VRecord.id := by
  have h := (prefill_foldl_find nk t ⟨[], []⟩ k).1
  rw [show prefillCache nk t = t.foldl (prefillStep nk) ⟨[], []⟩ from rfl, h]
  cases t.reverse.find? (fun r => decide (rtuple nk r = k)) <;> simp [dfind]

theorem prefill_keycache_eq (nk : List String) (t : List VRecord)
    (k : List String) :
    dfind (prefillCache nk t).keycache k =
      (t.reverse.find? (fun r => decide (rtuple nk r = k))).map
        (fun r => rowHash r.toRow) := by
  have h := (prefill_foldl_find nk t ⟨[], []⟩ k).2
  rw [show prefillCache nk t = t.foldl (prefillStep nk) ⟨[], []⟩ from rfl, h]
  cases t.reverse.find? (fun r => decide (rtuple nk r = k)) <;> simp [dfind]

theorem prefill_entry (nk : List String) (t : List VRecord)
    {k : List String} {i : Nat}
    (h : (k, i) ∈ (prefillCache nk t).idcache) :
    ∃ r ∈ t, rtuple nk r = k ∧ r.id = i := by
  suffices hgen : ∀ m : Caches, (k, i) ∈ (t.foldl (prefillStep nk) m).idcache →
      (k, i) ∈ m.idcache ∨ ∃ r ∈ t, rtuple nk r = k ∧ r.id = i by
    rcases hgen ⟨[], []⟩ h with h2 | h2
    · simp at h2
    · exact h2
  clear h
  induction t with
  | nil => intro m h; left; exact h
  | cons r t ih =>
    intro m h
    rcases ih (prefillStep nk m r) h with h2 | h2
    · rcases mem_dput h2 with h3 | h3
      · left; exact h3
      · right
        refine ⟨r, List.mem_cons_self _ _, ?_⟩
        injection h3 with hk hi
        exact ⟨hk.symm, hi.symm⟩
    · right
      obtain ⟨r2, hr2, ht, hi⟩ := h2
      exact ⟨r2, List.mem_cons_of_mem _ hr2, ht, hi⟩

theorem prefill_idcache_nodup (nk : List String) (t : List VRecord) :
    (dkeys (prefillCache nk t).idcache).Nodup := by
  suffices hgen : ∀ m : Caches, (dkeys m.idcache).Nodup →
      (dkeys ((t.foldl (prefillStep nk) m)).idcache).Nodup from
    hgen ⟨[], []⟩ (by simp [dkeys])
  induction t with
  | nil => intro m h; exact h
  | cons r t ih =>
    intro m h
    exact ih (prefillStep nk m r) (dkeys_nodup_dput h _ _)

theorem prefill_idcache_keys_iff (nk : List String) (t : List VRecord)
    (k : List String) :
    k ∈ dkeys (prefillCache nk t).idcache ↔ ∃ r ∈ t, rtuple nk r = k := by
  rw [← dfind_isSome_iff, prefill_idcache_eq]
  have hmap : (Option.map VRecord.id (t.reverse.find?
      (fun r => decide (rtuple nk r = k)))).isSome =
      (t.reverse.find? (fun r => decide (rtuple nk r = k))).isSome := by
    cases t.reverse.find? (fun r => decide (rtuple nk r = k)) <;> rfl
  rw [hmap, List.find?_isSome]
  constructor
  · rintro ⟨r, hr, hp⟩
    exact ⟨r, List.mem_reverse.mp hr, by simpa using hp⟩
  · rintro ⟨r, hr, hp⟩
    exact ⟨r, List.mem_reverse.mpr hr, by simpa using hp⟩

/-- When the scanned slice has pairwise distinct natural-key tuples, the
cache build maps each scanned record's tuple to exactly that record's
digest and surrogate id. -/
theorem prefill_find_self (nk : List String) (t : List VRecord)
    (htn : (t.map (rtuple nk)).Nodup) {r : VRecord} (hr : r ∈ t) :
    dfind (prefillCache nk t).idcache (rtuple nk r) = some r.id ∧
    dfind (prefillCache nk t).keycache (rtuple nk r) =
      some (rowHash r.toRow) := by
  have hfind : t.reverse.find? (fun x => decide (rtuple nk x = rtuple nk r))
      = some r := by
    cases hf : t.reverse.find? (fun x => decide (rtuple nk x = rtuple nk r))
      with
    | none =>
      exfalso
      have := List.find?_eq_none.mp hf r (List.mem_reverse.mpr hr)
      simp at this
    | some r2 =>
      have hp := List.find?_some hf
      have hm := List.mem_of_find?_eq_some hf
      have heq : rtuple nk r2 = rtuple nk r := by simpa using hp
      have : r2 = r :=
        List.inj_on_of_nodup_map htn (List.mem_reverse.mp hm) hr heq
      rw [this]
  rw [prefill_idcache_eq, prefill_keycache_eq, hfind]
  exact ⟨rfl, rfl⟩

theorem assignIds_map_cols (sid : Nat) (l : List Row) :
    (assignIds sid l).map VRecord.cols = l := by
  induction l generalizing sid with
  | nil => rfl
  | cons row rest ih => simp [assignIds, ih]

theorem mem_assignIds {sid : Nat} {l : List Row} {rec : VRecord}
    (h : rec ∈ assignIds sid l) : sid ≤ rec.id ∧ rec.cols ∈ l := by
  induction l generalizing sid with
  | nil => simp [assignIds] at h
  | cons row rest ih =>
    rcases List.mem_cons.mp h with h1 | h1
    · subst h1
      exact ⟨Nat.le_refl _, List.mem_cons_self _ _⟩
    · obtain ⟨hle, hmem⟩ := ih h1
      exact ⟨by omega, List.mem_cons_of_mem _ hmem⟩

theorem assignIds_countP (sid : Nat) (l : List Row) (q : Row → Bool) :
    (assignIds sid l).countP (fun rec => q rec.cols) = l.countP q := by
  induction l generalizing sid with
  | nil => rfl
  | cons row rest ih =>
    rw [assignIds, List.countP_cons, List.countP_cons, ih]

theorem dfind_filter_nonsys (r : Row) {c : String} (hcs : c ∉ sysCols) :
    dfind (r.filter (fun p => decide (p.1 ∉ sysCols))) c = dfind r c := by
  induction r with
  | nil => rfl
  | cons p r ih =>
    by_cases hp : p.1 ∈ sysCols
    · have hpc : ¬ p.1 = c := fun hh => hcs (hh ▸ hp)
      have : decide (p.1 ∉ sysCols) = false := by simpa using hp
      rw [List.filter_cons, this]
      simp only [Bool.false_eq_true, if_false, ih]
      show dfind r c = if p.1 = c then some p.2 else dfind r c
      rw [if_neg hpc]
    · have : decide (p.1 ∉ sysCols) = true := by simpa using hp
      rw [List.filter_cons, this]
      simp only [if_true]
      show (if p.1 = c then some p.2 else _) =
        (if p.1 = c then some p.2 else dfind r c)
      by_cases hpc : p.1 = c
      · rw [if_pos hpc, if_pos hpc]
      · rw [if_neg hpc, if_neg hpc, ih]

theorem dfind_eq_of_perm {K V : Type} [DecidableEq K]
    {m1 m2 : List (K × V)} (hnd : (dkeys m2).Nodup) (hp : m1.Perm m2)
    (k : K) : dfind m1 k = dfind m2 k := by
  cases h : dfind m1 k with
  | some v =>
    rw [dfind_eq_some_of_mem hnd (hp.mem_iff.mp (mem_of_dfind_eq_some h))]
  | none =>
    symm
    rw [dfind_eq_none_iff] at h ⊢
    intro p hp2
    exact h p (hp.mem_iff.mpr hp2)

/-- C1, counterexample: two currently valid records share the natural-key
tuple `("A",)`; the cache build of `src/ttable.py` completes without any
failure and maps the tuple to the second record's digest and id — the
duplicate is silently repaired by overwriting the earlier entry, so the
claimed fatal abort does not exist in the code. -/
theorem c1_counterexample_duplicate_silently_overwritten :
    (VRecord.mk 1 [("k", "A"), ("p", "x"), ("SysStartDate", "2020-01-01"),
      ("SysEndDate", "2999-12-31")]).isCurrent ∧
    (VRecord.mk 2 [("k", "A"), ("p", "y"), ("SysStartDate", "2021-01-01"),
      ("SysEndDate", "2999-12-31")]).isCurrent ∧
    rtuple ["k"] (VRecord.mk 1 [("k", "A"), ("p", "x"),
      ("SysStartDate", "2020-01-01"), ("SysEndDate", "2999-12-31")]) =
      rtuple ["k"] (VRecord.mk 2 [("k", "A"), ("p", "y"),
        ("SysStartDate", "2021-01-01"), ("SysEndDate", "2999-12-31")]) ∧
    prefillCache ["k"]
      [VRecord.mk 1 [("k", "A"), ("p", "x"), ("SysStartDate", "2020-01-01"),
        ("SysEndDate", "2999-12-31")],
       VRecord.mk 2 [("k", "A"), ("p", "y"), ("SysStartDate", "2021-01-01"),
        ("SysEndDate", "2999-12-31")]] =
      Caches.mk [(["A"], "Ay")] [(["A"], 2)] := by decide

/-- C1, amended: when the same natural-key tuple occurs on several rows of
the scanned table, the cache build does not fail; the row scanned last
wins, its digest and surrogate id silently replacing the earlier cache
entries (Python dict assignment), and the run proceeds. -/
theorem c1_amended_cache_build_last_duplicate_wins (nk : List String)
    (t : List VRecord) (k : List String) :
    dfind (prefillCache nk t).idcache k =
      (t.reverse.find? (fun r => decide (rtuple nk r = k))).map
        VRecord.id ∧
    dfind (prefillCache nk t).keycache k =
      (t.reverse.find? (fun r => decide (rtuple nk r = k))).map
        (fun r => rowHash r.toRow) :=
  ⟨prefill_idcache_eq nk t k, prefill_keycache_eq nk t k⟩

/-- C2, failing input: a record whose `SysEndDate` is not the sentinel (a
closed historical version).  The cache build of `src/ttable.py` iterates
`session.query(self.table_bound)` with no filter, so the closed row does
contribute a cache entry, contrary to the claim (and to the method's own
docstring, and to the `src/luigi/ttable.py` variant, which filters on
`SysEndDate = enddate` and caches nothing here). -/
theorem c2_closed_row_enters_cache :
    ¬ (VRecord.mk 7 [("k", "A"), ("p", "x"), ("SysStartDate", "2020-01-01"),
        ("SysEndDate", "2021-05-05")]).isCurrent ∧
    dfind (prefillCache ["k"]
      [VRecord.mk 7 [("k", "A"), ("p", "x"), ("SysStartDate", "2020-01-01"),
        ("SysEndDate", "2021-05-05")]]).idcache ["A"] = some 7 ∧
    dfind (prefillCache ["k"]
      [VRecord.mk 7 [("k", "A"), ("p", "x"), ("SysStartDate", "2020-01-01"),
        ("SysEndDate", "2021-05-05")]]).keycache ["A"] = some "Ax" ∧
    luigiPrefillCache ["k"]
      [VRecord.mk 7 [("k", "A"), ("p", "x"), ("SysStartDate", "2020-01-01"),
        ("SysEndDate", "2021-05-05")]] = Caches.mk [] [] := by decide

/-- C9: the digest input is the plain concatenation of the encoded values
with no separator, so it is not injective: the stored payload
`(p = "a", q = "bc")` and the incoming payload `(p = "ab", q = "c")` for
the same natural key `("K",)` produce the same digest input `"Kabc"`, and
the genuinely changed incoming row is classified Unchanged — no insert is
queued and no id is queued for closing. -/
theorem c9_concatenation_not_injective :
    rowHash (stamp "2024-01-01" [("k", "K"), ("p", "ab"), ("q", "c")]) =
      rowHash (VRecord.mk 1 [("k", "K"), ("p", "a"), ("q", "bc"),
        ("SysStartDate", "2020-01-01"),
        ("SysEndDate", "2999-12-31")]).toRow ∧
    dfind ([("k", "K"), ("p", "ab"), ("q", "c")] : Row) "p" ≠
      dfind ([("k", "K"), ("p", "a"), ("q", "bc"),
        ("SysStartDate", "2020-01-01"), ("SysEndDate", "2999-12-31")] :
        Row) "p" ∧
    stuple ["k"] "2024-01-01" [("k", "K"), ("p", "ab"), ("q", "c")] =
      rtuple ["k"] (VRecord.mk 1 [("k", "K"), ("p", "a"), ("q", "bc"),
        ("SysStartDate", "2020-01-01"), ("SysEndDate", "2999-12-31")]) ∧
    (logChanges ["k"] "2024-01-01" 5000
      (prefillCache ["k"] [VRecord.mk 1 [("k", "K"), ("p", "a"),
        ("q", "bc"), ("SysStartDate", "2020-01-01"),
        ("SysEndDate", "2999-12-31")]])
      [[("k", "K"), ("p", "ab"), ("q", "c")]]).inserted = [] ∧
    (logChanges ["k"] "2024-01-01" 5000
      (prefillCache ["k"] [VRecord.mk 1 [("k", "K"), ("p", "a"),
        ("q", "bc"), ("SysStartDate", "2020-01-01"),
        ("SysEndDate", "2999-12-31")]])
      [[("k", "K"), ("p", "ab"), ("q", "c")]]).obsolete_ids = [] := by
  decide

/-- C8, counterexample: two source rows with the same natural-key tuple
and different payloads, against an empty cache: both rows are queued and
flushed as pending inserts (the first row's payload included), refuting
the claim that at most one pending insert is queued with the second row
winning. -/
theorem c8_counterexample_both_rows_queued :
    stuple ["k"] "2024-01-01" [("k", "A"), ("p", "x")] =
      stuple ["k"] "2024-01-01" [("k", "A"), ("p", "y")] ∧
    ([("k", "A"), ("p", "x")] : Row) ≠ [("k", "A"), ("p", "y")] ∧
    (logChanges ["k"] "2024-01-01" 5000 (Caches.mk [] [])
      [[("k", "A"), ("p", "x")], [("k", "A"), ("p", "y")]]).inserted =
      [stamp "2024-01-01" [("k", "A"), ("p", "x")],
       stamp "2024-01-01" [("k", "A"), ("p", "y")]] := by decide

/-- C8, amended: source rows are processed in arrival order and each
occurrence of a duplicated natural key is classified independently against
the run-start cache (the cache is never updated during the run), so a key
absent from the cache that appears twice queues one pending insert per
occurrence — both rows are inserted, with no last-write-wins
de-duplication. -/
theorem c8_amended_duplicate_new_key_inserts_both (nk : List String)
    (asof : String) (cs : Nat) (c : Caches) (r1 r2 : Row)
    (ht : stuple nk asof r2 = stuple nk asof r1)
    (hnone : dfind c.idcache (stuple nk asof r1) = none) :
    (logChanges nk asof cs c [r1, r2]).inserted.Perm
      [stamp asof r1, stamp asof r2] := by
  rw [List.perm_iff_count]
  intro a
  rw [logChanges_inserted_count]
  have hq : queuedRows nk asof c [r1, r2] =
      [stamp asof r1, stamp asof r2] := by
    unfold queuedRows isNewRow
    simp [hnone, ht]
  rw [hq]

/-- C8, witness for the amended theorem at a concrete duplicate-key
source. -/
theorem c8_amended_witness :
    stuple ["k"] "2024-01-01" [("k", "A"), ("p", "y")] =
      stuple ["k"] "2024-01-01" [("k", "A"), ("p", "x")] ∧
    dfind (Caches.mk [] []).idcache
      (stuple ["k"] "2024-01-01" [("k", "A"), ("p", "x")]) = none ∧
    (logChanges ["k"] "2024-01-01" 5000 (Caches.mk [] [])
      [[("k", "A"), ("p", "x")], [("k", "A"), ("p", "y")]]).inserted.Perm
      [stamp "2024-01-01" [("k", "A"), ("p", "x")],
       stamp "2024-01-01" [("k", "A"), ("p", "y")]] :=
  ⟨by decide, by decide,
    c8_amended_duplicate_new_key_inserts_both ["k"] "2024-01-01" 5000
      (Caches.mk [] []) [("k", "A"), ("p", "x")] [("k", "A"), ("p", "y")]
      (by decide) (by decide)⟩

/-- C4, failing input for the `src/luigi/ttable.py` variant: with
`obsolete_deleted_rows = False` and one Modified source row, the row is
classified Modified (its cached id 1 is collected in `obsolete_ids`), but
the whole obsolescence block — including the `_set_as_obsolete` call for
Modified rows — sits under `if self.obsolete_deleted_rows:`, so no close
update is issued at all and two versions of the key remain currently
valid.  The `src/ttable.py` variant at the same input closes exactly id 1,
as the claim states. -/
theorem c4_luigi_flag_off_skips_modified_closes :
    (luigiRun ["k"] "2024-01-01" 5000 false 2
      [VRecord.mk 1 [("k", "A"), ("p", "x"), ("SysStartDate", "2020-01-01"),
        ("SysEndDate", "2999-12-31")]]
      [[("k", "A"), ("p", "y")]]).state.obsolete_ids = [1] ∧
    (luigiRun ["k"] "2024-01-01" 5000 false 2
      [VRecord.mk 1 [("k", "A"), ("p", "x"), ("SysStartDate", "2020-01-01"),
        ("SysEndDate", "2999-12-31")]]
      [[("k", "A"), ("p", "y")]]).closeIssued = false ∧
    (luigiRun ["k"] "2024-01-01" 5000 false 2
      [VRecord.mk 1 [("k", "A"), ("p", "x"), ("SysStartDate", "2020-01-01"),
        ("SysEndDate", "2999-12-31")]]
      [[("k", "A"), ("p", "y")]]).closeIds = [] ∧
    currentCount ["k"] ["A"]
      (luigiRun ["k"] "2024-01-01" 5000 false 2
        [VRecord.mk 1 [("k", "A"), ("p", "x"),
          ("SysStartDate", "2020-01-01"), ("SysEndDate", "2999-12-31")]]
        [[("k", "A"), ("p", "y")]]).finalTarget = 2 ∧
    (runTT ["k"] "2024-01-01" 5000 false 2
      [VRecord.mk 1 [("k", "A"), ("p", "x"), ("SysStartDate", "2020-01-01"),
        ("SysEndDate", "2999-12-31")]]
      [[("k", "A"), ("p", "y")]]).closeIds = [1] ∧
    currentCount ["k"] ["A"]
      (runTT ["k"] "2024-01-01" 5000 false 2
        [VRecord.mk 1 [("k", "A"), ("p", "x"),
          ("SysStartDate", "2020-01-01"), ("SysEndDate", "2999-12-31")]]
        [[("k", "A"), ("p", "y")]]).finalTarget = 1 := by decide

/-- C6: for a source row whose natural-key tuple is in the id cache (with
cached id `cid`), and with neither pending queue at its flush threshold:
if the row's digest equals the cached digest, the reconciliation step does
nothing except record the key in the seen-set; if the digest differs, it
queues exactly the stamped row (`SysStartDate = asof`,
`SysEndDate = enddate`, the sentinel) as a pending insert, queues `cid` in
`obsolete_ids` so the old version will be closed, and records the key in
the seen-set. -/
theorem c6_cached_key_classification (nk : List String) (asof : String)
    (cs : Nat) (c : Caches) (s : LogState) (row0 : Row) (cid : Nat)
    (hcid : dfind c.idcache (stuple nk asof row0) = some cid)
    (hnew : s.new_rows.length < cs)
    (hmod : s.modified_rows.length + 1 < cs) :
    (dfind c.keycache (stuple nk asof row0) =
        some (rowHash (stamp asof row0)) →
      logStep nk asof cs c s row0 =
        { s with seenkeys := dput s.seenkeys (stuple nk asof row0) cid }) ∧
    (dfind c.keycache (stuple nk asof row0) ≠
        some (rowHash (stamp asof row0)) →
      logStep nk asof cs c s row0 =
        { s with
            modified_rows := s.modified_rows ++ [stamp asof row0],
            obsolete_ids := s.obsolete_ids ++ [cid],
            seenkeys := dput s.seenkeys (stuple nk asof row0) cid } ∧
      dfind (stamp asof row0) "SysStartDate" = some asof ∧
      dfind (stamp asof row0) "SysEndDate" = some enddate) := by
  constructor
  · intro hh
    unfold logStep
    unfold stuple at hcid hh ⊢
    simp [hcid, hh, show ¬ cs ≤ s.new_rows.length by omega,
      show ¬ cs ≤ s.modified_rows.length by omega]
  · intro hh
    refine ⟨?_, dfind_stamp_start asof row0, dfind_stamp_end asof row0⟩
    unfold logStep
    unfold stuple at hcid hh ⊢
    simp [hcid, hh, show ¬ cs ≤ s.new_rows.length by omega,
      show ¬ cs ≤ s.modified_rows.length + 1 by omega]

/-- C6, witness at a concrete cache hit (both the Unchanged and the
Modified branch of the conclusion are exercised through the theorem). -/
theorem c6_witness :
    dfind (Caches.mk [(["A"], "Ax")] [(["A"], 1)]).idcache
      (stuple ["k"] "2024-01-01" [("k", "A"), ("p", "x")]) = some 1 ∧
    LogState.init.new_rows.length < 5000 ∧
    LogState.init.modified_rows.length + 1 < 5000 ∧
    ((dfind (Caches.mk [(["A"], "Ax")] [(["A"], 1)]).keycache
        (stuple ["k"] "2024-01-01" [("k", "A"), ("p", "x")]) =
        some (rowHash (stamp "2024-01-01" [("k", "A"), ("p", "x")])) →
      logStep ["k"] "2024-01-01" 5000
        (Caches.mk [(["A"], "Ax")] [(["A"], 1)]) LogState.init
        [("k", "A"), ("p", "x")] =
        { LogState.init with
            seenkeys := dput LogState.init.seenkeys
              (stuple ["k"] "2024-01-01" [("k", "A"), ("p", "x")]) 1 }) ∧
    (dfind (Caches.mk [(["A"], "Ax")] [(["A"], 1)]).keycache
        (stuple ["k"] "2024-01-01" [("k", "A"), ("p", "x")]) ≠
        some (rowHash (stamp "2024-01-01" [("k", "A"), ("p", "x")])) →
      logStep ["k"] "2024-01-01" 5000
        (Caches.mk [(["A"], "Ax")] [(["A"], 1)]) LogState.init
        [("k", "A"), ("p", "x")] =
        { LogState.init with
            modified_rows := LogState.init.modified_rows ++
              [stamp "2024-01-01" [("k", "A"), ("p", "x")]],
            obsolete_ids := LogState.init.obsolete_ids ++ [1],
            seenkeys := dput LogState.init.seenkeys
              (stuple ["k"] "2024-01-01" [("k", "A"), ("p", "x")]) 1 } ∧
      dfind (stamp "2024-01-01" [("k", "A"), ("p", "x")]) "SysStartDate" =
        some "2024-01-01" ∧
      dfind (stamp "2024-01-01" [("k", "A"), ("p", "x")]) "SysEndDate" =
        some enddate)) :=
  ⟨by decide, by decide, by decide,
    c6_cached_key_classification ["k"] "2024-01-01" 5000
      (Caches.mk [(["A"], "Ax")] [(["A"], 1)]) LogState.init
      [("k", "A"), ("p", "x")] 1 (by decide) (by decide) (by decide)⟩

/-- Order- and system-column-invariance of the sorted-keys digest of
`src/ttable.py`: any two row dictionaries whose non-system bindings are
the same collection of column/value pairs — in any order, and with the
system columns bound to arbitrary values or absent — hash to the same
digest, and the digest is a pure function of the row, hence deterministic
across runs.  (This is the behavior the spec ascribes to the Row Hasher;
the `src/luigi/ttable.py` variant does not share it, see the C7
theorem.) -/
theorem rowHash_ignores_order_and_system_columns (r1 r2 : Row)
    (h1 : (dkeys r1).Nodup) (h2 : (dkeys r2).Nodup)
    (hperm : (r1.filter (fun p => decide (p.1 ∉ sysCols))).Perm
      (r2.filter (fun p => decide (p.1 ∉ sysCols)))) :
    rowHash r1 = rowHash r2 := by
  refine rowHash_congr h1 h2 ?_
  intro c hcs
  have hq2 : (dkeys (r2.filter (fun p => decide (p.1 ∉ sysCols)))).Nodup :=
    List.Nodup.sublist (List.Sublist.map Prod.fst (List.filter_sublist r2))
      h2
  rw [← dfind_filter_nonsys r1 hcs, ← dfind_filter_nonsys r2 hcs]
  exact dfind_eq_of_perm hq2 hperm c

theorem setAsObsolete_nil (asof : String) (t : List VRecord) :
    setAsObsolete asof [] t = t := by
  unfold setAsObsolete
  simp

theorem runTT_caches (nk : List String) (asof : String) (cs : Nat)
    (flag : Bool) (sid : Nat) (target : List VRecord) (source : List Row) :
    (runTT nk asof cs flag sid target source).caches =
      prefillCache nk target := rfl

theorem runTT_state (nk : List String) (asof : String) (cs : Nat)
    (flag : Bool) (sid : Nat) (target : List VRecord) (source : List Row) :
    (runTT nk asof cs flag sid target source).state =
      logChanges nk asof cs (prefillCache nk target) source := rfl

theorem runTT_insertedRecords (nk : List String) (asof : String) (cs : Nat)
    (flag : Bool) (sid : Nat) (target : List VRecord) (source : List Row) :
    (runTT nk asof cs flag sid target source).insertedRecords =
      assignIds sid
        (logChanges nk asof cs (prefillCache nk target) source).inserted :=
  rfl

theorem runTT_closeIds (nk : List String) (asof : String) (cs : Nat)
    (flag : Bool) (sid : Nat) (target : List VRecord) (source : List Row) :
    (runTT nk asof cs flag sid target source).closeIds =
      if flag then
        (logChanges nk asof cs (prefillCache nk target)
          source).obsolete_ids ++
          unseenIds (prefillCache nk target)
            (logChanges nk asof cs (prefillCache nk target) source).seenkeys
      else
        (logChanges nk asof cs (prefillCache nk target)
          source).obsolete_ids := rfl

theorem runTT_finalTarget (nk : List String) (asof : String) (cs : Nat)
    (flag : Bool) (sid : Nat) (target : List VRecord) (source : List Row) :
    (runTT nk asof cs flag sid target source).finalTarget =
      if (runTT nk asof cs flag sid target source).closeIds = [] then
        target ++ (runTT nk asof cs flag sid target source).insertedRecords
      else
        setAsObsolete asof
          (runTT nk asof cs flag sid target source).closeIds
          (target ++
            (runTT nk asof cs flag sid target source).insertedRecords) :=
  rfl

theorem runTT_final_eq (nk : List String) (asof : String) (cs : Nat)
    (flag : Bool) (sid : Nat) (target : List VRecord) (source : List Row) :
    (runTT nk asof cs flag sid target source).finalTarget =
      setAsObsolete asof (runTT nk asof cs flag sid target source).closeIds
        (target ++
          (runTT nk asof cs flag sid target source).insertedRecords) := by
  rw [runTT_finalTarget]
  by_cases h : (runTT nk asof cs flag sid target source).closeIds = []
  · rw [if_pos h, h, setAsObsolete_nil]
  · rw [if_neg h]

theorem closeIds_from_cache (nk : List String) (asof : String) (cs : Nat)
    (flag : Bool) (sid : Nat) (target : List VRecord) (source : List Row)
    {i : Nat} (h : i ∈ (runTT nk asof cs flag sid target source).closeIds) :
    ∃ k, dfind (prefillCache nk target).idcache k = some i := by
  rw [runTT_closeIds] at h
  have hmem : i ∈ (logChanges nk asof cs (prefillCache nk target)
      source).obsolete_ids ∨
      i ∈ unseenIds (prefillCache nk target)
        (logChanges nk asof cs (prefillCache nk target) source).seenkeys := by
    cases flag with
    | true =>
      simp only [if_true] at h
      exact List.mem_append.mp h
    | false =>
      simp only [Bool.false_eq_true, if_false] at h
      exact Or.inl h
  rcases hmem with hmem | hmem
  · rw [logChanges_obsolete] at hmem
    obtain ⟨row, hrow, hmc⟩ := List.mem_filterMap.mp hmem
    unfold modClose at hmc
    cases hic : dfind (prefillCache nk target).idcache
        (stuple nk asof row) with
    | none => rw [hic] at hmc; simp at hmc
    | some cid =>
      rw [hic] at hmc
      split_ifs at hmc
      refine ⟨stuple nk asof row, ?_⟩
      rw [hic, Option.some.inj hmc]
  · unfold unseenIds at hmem
    obtain ⟨p, hp, hpi⟩ := List.mem_map.mp hmem
    have hpc := (List.mem_filter.mp hp).1
    refine ⟨p.1, ?_⟩
    rw [← hpi]
    exact dfind_eq_some_of_mem (prefill_idcache_nodup nk target)
      (by rwa [Prod.mk.eta])

theorem closeIds_lt (nk : List String) (asof : String) (cs : Nat)
    (flag : Bool) (sid : Nat) (target : List VRecord) (source : List Row)
    (hfresh : ∀ r ∈ target, r.id < sid) {i : Nat}
    (h : i ∈ (runTT nk asof cs flag sid target source).closeIds) :
    i < sid := by
  obtain ⟨k, hk⟩ :=
    closeIds_from_cache nk asof cs flag sid target source h
  obtain ⟨r, hr, _, hid⟩ :=
    prefill_entry nk target (mem_of_dfind_eq_some hk)
  exact hid ▸ hfresh r hr

theorem logChanges_inserted_mem (nk : List String) (asof : String)
    (cs : Nat) (c : Caches) (rows : List Row) {a : Row}
    (h : a ∈ (logChanges nk asof cs c rows).inserted) :
    ∃ row ∈ rows, a = stamp asof row ∧
      (isNewRow nk asof c row || isModRow nk asof c row) = true := by
  have hc := logChanges_inserted_count nk asof cs c rows a
  have hpos : 0 < (queuedRows nk asof c rows).count a := by
    rw [← hc]
    exact List.count_pos_iff.mpr h
  have hq := List.count_pos_iff.mp hpos
  unfold queuedRows at hq
  obtain ⟨row, hrow, hst⟩ := List.mem_map.mp hq
  have hf := List.mem_filter.mp hrow
  exact ⟨row, hf.1, hst.symm, hf.2⟩

theorem countP_eq_le_one {α : Type} [DecidableEq α] {l : List α}
    (h : l.Nodup) (k : α) :
    l.countP (fun x => decide (x = k)) ≤ 1 := by
  induction l with
  | nil => simp
  | cons a l ih =>
    rw [List.countP_cons]
    by_cases hak : a = k
    · subst hak
      have hz : l.countP (fun x => decide (x = a)) = 0 := by
        rw [List.countP_eq_zero]
        intro b hb
        simp only [decide_eq_true_eq]
        intro hba
        exact (List.nodup_cons.mp h).1 (hba ▸ hb)
      simp [hz]
    · have hle := ih (List.nodup_cons.mp h).2
      simp only [decide_eq_true_eq, hak]
      simp
      omega

theorem rtuple_eq_cols (nk : List String) (hk : ∀ c ∈ nk, c ∉ sysCols)
    (r : VRecord) : rtuple nk r = makeSearchTuple nk r.cols := by
  cases r
  exact rtuple_mk nk hk _ _

theorem logChanges_inserted_perm (nk : List String) (asof : String)
    (cs : Nat) (c : Caches) (rows : List Row) :
    (logChanges nk asof cs c rows).inserted.Perm
      (queuedRows nk asof c rows) := by
  rw [List.perm_iff_count]
  intro a
  exact logChanges_inserted_count nk asof cs c rows a

theorem obsolete_mem_closeIds (nk : List String) (asof : String) (cs : Nat)
    (flag : Bool) (sid : Nat) (target : List VRecord) (source : List Row)
    {i : Nat}
    (h : i ∈ (logChanges nk asof cs (prefillCache nk target)
      source).obsolete_ids) :
    i ∈ (runTT nk asof cs flag sid target source).closeIds := by
  rw [runTT_closeIds]
  cases flag with
  | true => exact List.mem_append.mpr (Or.inl h)
  | false => exact h

/-- Combinatorial core of the at-most-one-current argument: closing a set
of ids over the old target extended by the inserted records leaves at most
one currently valid record per natural-key tuple, provided the old
target's tuples are pairwise distinct, no inserted id is closed, at most
one inserted record carries the tuple, and an inserted record with the
tuple forces every old record with the tuple into the close-set. -/
theorem countP_close_le_one (nk : List String) (asof : String)
    (k : List String) (hasof : asof ≠ enddate)
    (hnk : ∀ c ∈ nk, c ∉ sysCols) (t ins : List VRecord)
    (closeIds : List Nat) (htn : (t.map (rtuple nk)).Nodup)
    (hins1 : ∀ rec ∈ ins, rec.id ∉ closeIds)
    (hins_tuple : (ins.map (rtuple nk)).countP
      (fun x => decide (x = k)) ≤ 1)
    (hexcl : (∃ rec ∈ ins, rtuple nk rec = k) →
      ∀ r ∈ t, rtuple nk r = k → r.id ∈ closeIds) :
    (setAsObsolete asof closeIds (t ++ ins)).countP
      (fun r => decide (r.isCurrent ∧ rtuple nk r = k)) ≤ 1 := by
  unfold setAsObsolete
  rw [List.map_append, List.countP_append, List.countP_map,
    List.countP_map]
  have hphi_tuple : ∀ r : VRecord,
      rtuple nk (if r.id ∈ closeIds then
        { r with cols := dput r.cols "SysEndDate" asof } else r) =
      rtuple nk r := by
    intro r
    by_cases hr : r.id ∈ closeIds
    · rw [if_pos hr, rtuple_close nk hnk]
    · rw [if_neg hr]
  have hclosed_notcur : ∀ r : VRecord, r.id ∈ closeIds →
      ¬ (if r.id ∈ closeIds then
        { r with cols := dput r.cols "SysEndDate" asof } else r).isCurrent := by
    intro r hr
    rw [if_pos hr]
    show ¬ dfind (dput r.cols "SysEndDate" asof) "SysEndDate" = some enddate
    rw [dfind_dput, if_pos rfl]
    intro hh
    exact hasof (Option.some.inj hh)
  have hins_eq : ∀ rec ∈ ins,
      (if rec.id ∈ closeIds then
        { rec with cols := dput rec.cols "SysEndDate" asof } else rec) =
      rec := by
    intro rec hrec
    rw [if_neg (hins1 rec hrec)]
  have hbound_t : t.countP ((fun r => decide (r.isCurrent ∧
      rtuple nk r = k)) ∘ (fun r => if r.id ∈ closeIds then
        { r with cols := dput r.cols "SysEndDate" asof } else r)) ≤
      t.countP (fun r => decide (rtuple nk r = k)) := by
    refine List.countP_mono_left ?_
    intro r hr hp
    simp only [Function.comp_apply, decide_eq_true_eq] at hp
    simp only [decide_eq_true_eq]
    rw [← hphi_tuple r]
    exact hp.2
  have htup_t : t.countP (fun r => decide (rtuple nk r = k)) ≤ 1 := by
    have := countP_eq_le_one htn k
    rwa [List.countP_map] at this
  have hbound_i : ins.countP ((fun r => decide (r.isCurrent ∧
      rtuple nk r = k)) ∘ (fun r => if r.id ∈ closeIds then
        { r with cols := dput r.cols "SysEndDate" asof } else r)) ≤
      ins.countP (fun r => decide (rtuple nk r = k)) := by
    refine List.countP_mono_left ?_
    intro r hr hp
    simp only [Function.comp_apply, decide_eq_true_eq] at hp
    simp only [decide_eq_true_eq]
    rw [← hphi_tuple r]
    exact hp.2
  have htup_i : ins.countP (fun r => decide (rtuple nk r = k)) ≤ 1 := by
    rwa [List.countP_map] at hins_tuple
  by_cases hc : 0 < ins.countP ((fun r => decide (r.isCurrent ∧
      rtuple nk r = k)) ∘ (fun r => if r.id ∈ closeIds then
        { r with cols := dput r.cols "SysEndDate" asof } else r))
  · obtain ⟨rec, hrec, hp⟩ := List.countP_pos_iff.mp hc
    simp only [Function.comp_apply, decide_eq_true_eq] at hp
    have hrec_eq := hins_eq rec hrec
    rw [hrec_eq] at hp
    have hzero : t.countP ((fun r => decide (r.isCurrent ∧
        rtuple nk r = k)) ∘ (fun r => if r.id ∈ closeIds then
          { r with cols := dput r.cols "SysEndDate" asof } else r)) = 0 := by
      rw [List.countP_eq_zero]
      intro r hr
      simp only [Function.comp_apply, decide_eq_true_eq]
      intro hpr
      have htup : rtuple nk r = k := by
        rw [← hphi_tuple r]; exact hpr.2
      have hrid : r.id ∈ closeIds :=
        hexcl ⟨rec, hrec, hp.2⟩ r hr htup
      exact hclosed_notcur r hrid hpr.1
    omega
  · omega

theorem runTT_closeIssued (nk : List String) (asof : String) (cs : Nat)
    (flag : Bool) (sid : Nat) (target : List VRecord) (source : List Row) :
    (runTT nk asof cs flag sid target source).closeIssued =
      decide ((runTT nk asof cs flag sid target source).closeIds ≠ []) :=
  rfl

theorem assignIds_map_rtuple (nk : List String)
    (hnk : ∀ c ∈ nk, c ∉ sysCols) (sid : Nat) (l : List Row) :
    (assignIds sid l).map (rtuple nk) =
      l.map (fun cols => makeSearchTuple nk cols) := by
  induction l generalizing sid with
  | nil => rfl
  | cons row rest ih =>
    show rtuple nk (VRecord.mk sid row) :: _ = _
    rw [rtuple_mk nk hnk, ih]
    rfl

theorem runTT_empty_closeIds (nk : List String) (asof : String) (cs : Nat)
    (flag : Bool) (sid : Nat) (source : List Row) :
    (runTT nk asof cs flag sid [] source).closeIds = [] := by
  rw [runTT_closeIds]
  have hobs : (logChanges nk asof cs (prefillCache nk [])
      source).obsolete_ids = [] := by
    rw [logChanges_obsolete, List.filterMap_eq_nil]
    intro row hrow
    rfl
  cases flag with
  | true =>
    simp only [if_true, hobs, List.nil_append]
    rfl
  | false => exact hobs

theorem runTT_empty_finalTarget (nk : List String) (asof : String)
    (cs : Nat) (flag : Bool) (sid : Nat) (source : List Row) :
    (runTT nk asof cs flag sid [] source).finalTarget =
      assignIds sid
        (logChanges nk asof cs (Caches.mk [] []) source).inserted := by
  rw [runTT_finalTarget, if_pos (runTT_empty_closeIds nk asof cs flag sid
    source), runTT_insertedRecords]
  rfl

theorem queued_empty_cache (nk : List String) (asof : String)
    (source : List Row) :
    queuedRows nk asof (Caches.mk [] []) source =
      source.map (stamp asof) := by
  unfold queuedRows
  rw [List.filter_eq_self.mpr]
  intro row hrow
  rfl

/-- Key facts about a run over a target whose records are exactly the
stamped source rows (up to order) with pairwise distinct tuples: every
source row classifies Unchanged, so the run issues no inserts and no close
updates and leaves the target unchanged. -/
theorem second_run_no_mutations (nk : List String) (asof : String)
    (cs : Nat) (flag : Bool) (sid2 : Nat) (source : List Row)
    (t2 : List VRecord) (hnk : ∀ c ∈ nk, c ∉ sysCols)
    (hwf : ∀ row ∈ source, wfRow row)
    (htn2 : (t2.map (rtuple nk)).Nodup)
    (hcols : (t2.map VRecord.cols).Perm (source.map (stamp asof))) :
    (runTT nk asof cs flag sid2 t2 source).insertedRecords = [] ∧
    (runTT nk asof cs flag sid2 t2 source).closeIds = [] ∧
    (runTT nk asof cs flag sid2 t2 source).closeIssued = false ∧
    (runTT nk asof cs flag sid2 t2 source).finalTarget = t2 := by
  have hcache : ∀ row ∈ source, ∃ i,
      dfind (prefillCache nk t2).idcache (stuple nk asof row) = some i ∧
      dfind (prefillCache nk t2).keycache (stuple nk asof row) =
        some (rowHash (stamp asof row)) := by
    intro row hrow
    have h1 : stamp asof row ∈ t2.map VRecord.cols :=
      hcols.mem_iff.mpr (List.mem_map.mpr ⟨row, hrow, rfl⟩)
    obtain ⟨rec, hrec, hco⟩ := List.mem_map.mp h1
    have htr : rtuple nk rec = stuple nk asof row := by
      rw [rtuple_eq_cols nk hnk, hco]
      exact rfl
    obtain ⟨hid2, hkey2⟩ := prefill_find_self nk t2 htn2 hrec
    have hid_row : "id" ∉ dkeys row := by
      intro hmem
      exact (hwf row hrow).2 "id" hmem (by decide)
    refine ⟨rec.id, ?_, ?_⟩
    · rw [← htr]; exact hid2
    · rw [← htr, hkey2]
      congr 1
      obtain ⟨i, cols⟩ := rec
      simp only at hco
      rw [hco]
      exact recordHash_insert (hwf row hrow).1 hid_row asof i
  have hclass : ∀ row ∈ source,
      (isNewRow nk asof (prefillCache nk t2) row ||
        isModRow nk asof (prefillCache nk t2) row) = false := by
    intro row hrow
    obtain ⟨i, hid2, hkey2⟩ := hcache row hrow
    unfold isNewRow isModRow
    rw [hid2, hkey2]
    simp
  have hq2 : queuedRows nk asof (prefillCache nk t2) source = [] := by
    unfold queuedRows
    have hflt : source.filter (fun row =>
        isNewRow nk asof (prefillCache nk t2) row ||
        isModRow nk asof (prefillCache nk t2) row) = [] := by
      rw [List.filter_eq_nil]
      intro row hrow
      rw [hclass row hrow]
      simp
    rw [hflt]
    rfl
  have hins2 : (logChanges nk asof cs (prefillCache nk t2)
      source).inserted = [] :=
    logChanges_inserted_nil nk asof cs (prefillCache nk t2) source hq2
  have hobs2 : (logChanges nk asof cs (prefillCache nk t2)
      source).obsolete_ids = [] := by
    rw [logChanges_obsolete, List.filterMap_eq_nil]
    intro row hrow
    obtain ⟨i, hid2, hkey2⟩ := hcache row hrow
    unfold modClose
    rw [hid2]
    show (if dfind (prefillCache nk t2).keycache (stuple nk asof row) ≠
        some (rowHash (stamp asof row)) then some i else none) = none
    rw [if_neg]
    rw [hkey2]
    simp
  have hseen2 : unseenIds (prefillCache nk t2)
      (logChanges nk asof cs (prefillCache nk t2) source).seenkeys = [] := by
    unfold unseenIds
    have hflt : (prefillCache nk t2).idcache.filter (fun p =>
        decide (dfind (logChanges nk asof cs (prefillCache nk t2)
          source).seenkeys p.1 = none)) = [] := by
      rw [List.filter_eq_nil]
      intro p hp
      obtain ⟨pk, pi⟩ := p
      simp only [decide_eq_true_eq]
      intro hnone
      obtain ⟨rec, hrecmem, hrt, hrid⟩ := prefill_entry nk t2 hp
      have hcols_mem : rec.cols ∈ source.map (stamp asof) :=
        hcols.mem_iff.mp (List.mem_map.mpr ⟨rec, hrecmem, rfl⟩)
      obtain ⟨row, hrow, hco⟩ := List.mem_map.mp hcols_mem
      have hpt : pk = stuple nk asof row := by
        rw [← hrt, rtuple_eq_cols nk hnk, ← hco]
        exact rfl
      have hid : dfind (prefillCache nk t2).idcache pk = some pi :=
        dfind_eq_some_of_mem (prefill_idcache_nodup nk t2) hp
      rw [logChanges_seen, if_pos] at hnone
      · rw [hid] at hnone
        simp at hnone
      · rw [List.any_eq_true]
        exact ⟨row, hrow, by rw [hpt] at hid; simp [hpt, hid]⟩
    rw [hflt]
    rfl
  have hclose2 : (runTT nk asof cs flag sid2 t2 source).closeIds = [] := by
    rw [runTT_closeIds]
    cases flag with
    | true =>
      simp only [if_true]
      rw [hobs2, hseen2]
      rfl
    | false => exact hobs2
  refine ⟨?_, hclose2, ?_, ?_⟩
  · rw [runTT_insertedRecords, hins2]
    rfl
  · rw [runTT_closeIssued, hclose2]
    rfl
  · rw [runTT_finalTarget, if_pos hclose2, runTT_insertedRecords, hins2]
    exact List.append_nil t2

/-- C5, counterexample: with a duplicate-key source, the second run with
the identical source and the same `asof` is not a no-op: the run-start
cache points at the record inserted for the second duplicate, so the first
duplicate classifies Modified — one insert is issued and a close update is
issued. -/
theorem c5_counterexample_second_run_mutates :
    (runTT ["k"] "2024-01-01" 5000 true 20
      (runTT ["k"] "2024-01-01" 5000 true 10 []
        [[("k", "A"), ("p", "x")], [("k", "A"), ("p", "y")]]).finalTarget
      [[("k", "A"), ("p", "x")],
       [("k", "A"), ("p", "y")]]).insertedRecords.length = 1 ∧
    (runTT ["k"] "2024-01-01" 5000 true 20
      (runTT ["k"] "2024-01-01" 5000 true 10 []
        [[("k", "A"), ("p", "x")], [("k", "A"), ("p", "y")]]).finalTarget
      [[("k", "A"), ("p", "x")],
       [("k", "A"), ("p", "y")]]).closeIssued = true := by decide

/-- C5, amended: when the source's natural-key tuples are pairwise
distinct (and the rows are well-formed dictionaries without system
columns), a second run with the identical source and the same `asof`,
starting from the target produced by a first run over an empty target,
issues no inserts and no close updates — its close-set is empty and the
target is left exactly as the first run produced it. -/
theorem c5_amended_second_run_no_mutations (nk : List String)
    (asof : String) (cs : Nat) (flag : Bool) (sid1 sid2 : Nat)
    (source : List Row) (hnk : ∀ c ∈ nk, c ∉ sysCols)
    (hwf : ∀ row ∈ source, wfRow row)
    (hsrc : (source.map (stuple nk asof)).Nodup) :
    (runTT nk asof cs flag sid2
      (runTT nk asof cs flag sid1 [] source).finalTarget
      source).insertedRecords = [] ∧
    (runTT nk asof cs flag sid2
      (runTT nk asof cs flag sid1 [] source).finalTarget
      source).closeIds = [] ∧
    (runTT nk asof cs flag sid2
      (runTT nk asof cs flag sid1 [] source).finalTarget
      source).closeIssued = false ∧
    (runTT nk asof cs flag sid2
      (runTT nk asof cs flag sid1 [] source).finalTarget
      source).finalTarget =
      (runTT nk asof cs flag sid1 [] source).finalTarget := by
  rw [runTT_empty_finalTarget nk asof cs flag sid1 source]
  have hperm1 : ((logChanges nk asof cs (Caches.mk [] [])
      source).inserted).Perm (source.map (stamp asof)) := by
    have h := logChanges_inserted_perm nk asof cs (Caches.mk [] []) source
    rwa [queued_empty_cache] at h
  refine second_run_no_mutations nk asof cs flag sid2 source _ hnk hwf
    ?_ ?_
  · rw [assignIds_map_rtuple nk hnk]
    refine ((hperm1.map
      (fun cols => makeSearchTuple nk cols)).symm).nodup ?_
    rw [List.map_map]
    exact hsrc
  · rw [assignIds_map_cols]
    exact hperm1

/-- C5, witness: a concrete distinct-key source run twice from an empty
target. -/
theorem c5_witness :
    (∀ c ∈ ["k"], c ∉ sysCols) ∧
    (∀ row ∈ ([[("k", "A"), ("p", "x")], [("k", "B"), ("p", "y")]] :
      List Row), wfRow row) ∧
    (([[("k", "A"), ("p", "x")], [("k", "B"), ("p", "y")]] :
      List Row).map (stuple ["k"] "2024-01-01")).Nodup ∧
    ((runTT ["k"] "2024-01-01" 5000 true 20
      (runTT ["k"] "2024-01-01" 5000 true 10 []
        [[("k", "A"), ("p", "x")], [("k", "B"), ("p", "y")]]).finalTarget
      [[("k", "A"), ("p", "x")],
       [("k", "B"), ("p", "y")]]).insertedRecords = [] ∧
    (runTT ["k"] "2024-01-01" 5000 true 20
      (runTT ["k"] "2024-01-01" 5000 true 10 []
        [[("k", "A"), ("p", "x")], [("k", "B"), ("p", "y")]]).finalTarget
      [[("k", "A"), ("p", "x")],
       [("k", "B"), ("p", "y")]]).closeIds = [] ∧
    (runTT ["k"] "2024-01-01" 5000 true 20
      (runTT ["k"] "2024-01-01" 5000 true 10 []
        [[("k", "A"), ("p", "x")], [("k", "B"), ("p", "y")]]).finalTarget
      [[("k", "A"), ("p", "x")],
       [("k", "B"), ("p", "y")]]).closeIssued = false ∧
    (runTT ["k"] "2024-01-01" 5000 true 20
      (runTT ["k"] "2024-01-01" 5000 true 10 []
        [[("k", "A"), ("p", "x")], [("k", "B"), ("p", "y")]]).finalTarget
      [[("k", "A"), ("p", "x")], [("k", "B"), ("p", "y")]]).finalTarget =
      (runTT ["k"] "2024-01-01" 5000 true 10 []
        [[("k", "A"), ("p", "x")],
         [("k", "B"), ("p", "y")]]).finalTarget) :=
  ⟨by decide, by decide, by decide,
    c5_amended_second_run_no_mutations ["k"] "2024-01-01" 5000 true 10 20
      [[("k", "A"), ("p", "x")], [("k", "B"), ("p", "y")]]
      (by decide) (by decide) (by decide)⟩

/-- C3, counterexample: from an empty target (which trivially satisfies
the at-most-one-current invariant), a source whose two rows share the
natural key `("A",)` leaves two records with `valid_to = sentinel` for
that key after a complete run — both duplicates are classified New and
inserted, and neither is closed. -/
theorem c3_counterexample_duplicate_source_keys :
    currentCount ["k"] ["A"]
      (runTT ["k"] "2024-01-01" 5000 true 10 []
        [[("k", "A"), ("p", "x")],
         [("k", "A"), ("p", "y")]]).finalTarget = 2 := by decide

/-- C3, amended: when the source's natural-key tuples are pairwise
distinct, the starting target consists of currently valid records only and
satisfies the invariant (pairwise distinct tuples), the natural-key
columns are not system columns, the sink assigns fresh surrogate ids, and
`asof` is not the sentinel, then after a complete run every natural key
has at most one record with `valid_to = sentinel`. -/
theorem c3_amended_run_preserves_at_most_one_current (nk : List String)
    (asof : String) (cs : Nat) (flag : Bool) (sid : Nat)
    (target : List VRecord) (source : List Row)
    (hasof : asof ≠ enddate) (hnk : ∀ c ∈ nk, c ∉ sysCols)
    (hcur : ∀ r ∈ target, r.isCurrent)
    (htgt : (target.map (rtuple nk)).Nodup)
    (hfresh : ∀ r ∈ target, r.id < sid)
    (hsrc : (source.map (stuple nk asof)).Nodup) :
    ∀ k, currentCount nk k
      (runTT nk asof cs flag sid target source).finalTarget ≤ 1 := by
  intro k
  rw [currentCount, runTT_final_eq]
  refine countP_close_le_one nk asof k hasof hnk target _ _ htgt ?_ ?_ ?_
  · intro rec hrec hin
    have h1 := (mem_assignIds (by rwa [runTT_insertedRecords] at hrec)).1
    have h2 := closeIds_lt nk asof cs flag sid target source hfresh hin
    omega
  · rw [runTT_insertedRecords, List.countP_map]
    have e1 : (assignIds sid (logChanges nk asof cs
        (prefillCache nk target) source).inserted).countP
        ((fun x => decide (x = k)) ∘ rtuple nk) =
        (assignIds sid (logChanges nk asof cs
          (prefillCache nk target) source).inserted).countP
        (fun rec => decide (makeSearchTuple nk rec.cols = k)) := by
      refine List.countP_congr ?_
      intro rec hrec
      simp only [Function.comp_apply, decide_eq_true_eq]
      rw [rtuple_eq_cols nk hnk]
    rw [e1]
    have e2 : (assignIds sid (logChanges nk asof cs
        (prefillCache nk target) source).inserted).countP
        (fun rec => decide (makeSearchTuple nk rec.cols = k)) =
        (logChanges nk asof cs (prefillCache nk target)
          source).inserted.countP
        (fun cols => decide (makeSearchTuple nk cols = k)) :=
      assignIds_countP sid _ (fun cols => decide (makeSearchTuple nk cols = k))
    rw [e2,
      (logChanges_inserted_perm nk asof cs (prefillCache nk target)
        source).countP_eq]
    unfold queuedRows
    rw [List.countP_map]
    have hfinal : source.countP ((fun cols =>
        decide (makeSearchTuple nk cols = k)) ∘ stamp asof) ≤ 1 := by
      have h2 := countP_eq_le_one hsrc k
      rw [List.countP_map] at h2
      have h3 : source.countP ((fun cols =>
          decide (makeSearchTuple nk cols = k)) ∘ stamp asof) =
          source.countP ((fun x => decide (x = k)) ∘ stuple nk asof) := by
        refine List.countP_congr ?_
        intro row hrow
        simp [stuple, Function.comp]
      rw [h3]
      exact h2
    exact le_trans
      (List.Sublist.countP_le _ (List.filter_sublist source)) hfinal
  · rintro ⟨rec, hrec, hrtup⟩ r hr htup
    rw [runTT_insertedRecords] at hrec
    have hcols := (mem_assignIds hrec).2
    obtain ⟨row, hrow, hstamp, hclass⟩ := logChanges_inserted_mem nk asof
      cs (prefillCache nk target) source hcols
    have hstup : stuple nk asof row = k := by
      rw [← hrtup, rtuple_eq_cols nk hnk, hstamp]
      exact rfl
    rcases (Bool.or_eq_true _ _).mp hclass with hnewc | hmodc
    · exfalso
      unfold isNewRow at hnewc
      rw [hstup] at hnewc
      have hk : k ∈ dkeys (prefillCache nk target).idcache :=
        (prefill_idcache_keys_iff nk target k).mpr ⟨r, hr, htup⟩
      rw [← dfind_isSome_iff] at hk
      rw [Option.isNone_iff_eq_none] at hnewc
      rw [hnewc] at hk
      simp at hk
    · unfold isModRow at hmodc
      rw [hstup] at hmodc
      cases hic : dfind (prefillCache nk target).idcache k with
      | none => rw [hic] at hmodc; simp at hmodc
      | some cid =>
        rw [hic] at hmodc
        have hmc : modClose nk asof (prefillCache nk target) row =
            some cid := by
          unfold modClose
          rw [hstup, hic]
          show (if dfind (prefillCache nk target).keycache k ≠
              some (rowHash (stamp asof row)) then some cid else none) =
            some cid
          rw [if_pos (of_decide_eq_true hmodc)]
        have hobs : cid ∈ (logChanges nk asof cs
            (prefillCache nk target) source).obsolete_ids := by
          rw [logChanges_obsolete]
          exact List.mem_filterMap.mpr ⟨row, hrow, hmc⟩
        have hcid_close :=
          obsolete_mem_closeIds nk asof cs flag sid target source hobs
        have hfind := prefill_idcache_eq nk target k
        rw [hic] at hfind
        cases hf : target.reverse.find?
            (fun r => decide (rtuple nk r = k)) with
        | none => rw [hf] at hfind; simp at hfind
        | some rf =>
          rw [hf] at hfind
          have hrfid : cid = rf.id := by simpa using hfind
          have hrft : rtuple nk rf = k := by
            simpa using List.find?_some hf
          have hrfm : rf ∈ target :=
            List.mem_reverse.mp (List.mem_of_find?_eq_some hf)
          have hrfr : rf = r :=
            List.inj_on_of_nodup_map htgt hrfm hr (hrft.trans htup.symm)
          rw [← hrfr, ← hrfid]
          exact hcid_close

/-- C3, witness: a concrete run (one Modified key, one deleted key, one
New key) from a fully current, invariant-satisfying target. -/
theorem c3_witness :
    ("2024-01-01" : String) ≠ enddate ∧
    (∀ c ∈ ["k"], c ∉ sysCols) ∧
    (∀ r ∈ [VRecord.mk 1 [("k", "A"), ("p", "x"),
        ("SysStartDate", "2020-01-01"), ("SysEndDate", "2999-12-31")],
      VRecord.mk 2 [("k", "B"), ("p", "z"),
        ("SysStartDate", "2020-01-01"), ("SysEndDate", "2999-12-31")]],
      r.isCurrent) ∧
    (([VRecord.mk 1 [("k", "A"), ("p", "x"),
        ("SysStartDate", "2020-01-01"), ("SysEndDate", "2999-12-31")],
      VRecord.mk 2 [("k", "B"), ("p", "z"),
        ("SysStartDate", "2020-01-01"),
        ("SysEndDate", "2999-12-31")]].map (rtuple ["k"])).Nodup) ∧
    (∀ r ∈ [VRecord.mk 1 [("k", "A"), ("p", "x"),
        ("SysStartDate", "2020-01-01"), ("SysEndDate", "2999-12-31")],
      VRecord.mk 2 [("k", "B"), ("p", "z"),
        ("SysStartDate", "2020-01-01"), ("SysEndDate", "2999-12-31")]],
      r.id < 5) ∧
    (([[("k", "A"), ("p", "x2")], [("k", "C"), ("p", "w")]].map
      (stuple ["k"] "2024-01-01")).Nodup) ∧
    ∀ k, currentCount ["k"] k
      (runTT ["k"] "2024-01-01" 5000 true 5
        [VRecord.mk 1 [("k", "A"), ("p", "x"),
          ("SysStartDate", "2020-01-01"), ("SysEndDate", "2999-12-31")],
         VRecord.mk 2 [("k", "B"), ("p", "z"),
          ("SysStartDate", "2020-01-01"), ("SysEndDate", "2999-12-31")]]
        [[("k", "A"), ("p", "x2")],
         [("k", "C"), ("p", "w")]]).finalTarget ≤ 1 :=
  ⟨by decide, by decide, by decide, by decide, by decide, by decide,
    c3_amended_run_preserves_at_most_one_current ["k"] "2024-01-01" 5000
      true 5
      [VRecord.mk 1 [("k", "A"), ("p", "x"),
        ("SysStartDate", "2020-01-01"), ("SysEndDate", "2999-12-31")],
       VRecord.mk 2 [("k", "B"), ("p", "z"),
        ("SysStartDate", "2020-01-01"), ("SysEndDate", "2999-12-31")]]
      [[("k", "A"), ("p", "x2")], [("k", "C"), ("p", "w")]]
      (by decide) (by decide) (by decide) (by decide) (by decide)
      (by decide)⟩

/-- C10: the obsolescence sweep only ever closes surrogate ids present in
the id cache built before reconciliation; every record inserted during the
run reaches the final target unchanged and still carries the sentinel
`valid_to` (it is currently valid at run end); and every pre-existing
target row whose id is outside the close-set is left untouched in the
final target. -/
theorem c10_sweep_frame (nk : List String) (asof : String) (cs : Nat)
    (flag : Bool) (sid : Nat) (target : List VRecord) (source : List Row)
    (hfresh : ∀ r ∈ target, r.id < sid) :
    (∀ i ∈ (runTT nk asof cs flag sid target source).closeIds,
      ∃ k, dfind (runTT nk asof cs flag sid target
        source).caches.idcache k = some i) ∧
    (∀ rec ∈ (runTT nk asof cs flag sid target source).insertedRecords,
      rec ∈ (runTT nk asof cs flag sid target source).finalTarget ∧
        rec.isCurrent) ∧
    (∀ r ∈ target,
      r.id ∉ (runTT nk asof cs flag sid target source).closeIds →
      r ∈ (runTT nk asof cs flag sid target source).finalTarget) := by
  refine ⟨?_, ?_, ?_⟩
  · intro i hi
    rw [runTT_caches]
    exact closeIds_from_cache nk asof cs flag sid target source hi
  · intro rec hrec
    rw [runTT_insertedRecords] at hrec
    obtain ⟨hle, hcols⟩ := mem_assignIds hrec
    have hnotclose : rec.id ∉
        (runTT nk asof cs flag sid target source).closeIds := by
      intro hin
      have := closeIds_lt nk asof cs flag sid target source hfresh hin
      omega
    constructor
    · rw [runTT_final_eq]
      unfold setAsObsolete
      refine List.mem_map.mpr ⟨rec, ?_, ?_⟩
      · exact List.mem_append.mpr (Or.inr (by
          rw [runTT_insertedRecords]; exact hrec))
      · rw [if_neg hnotclose]
    · obtain ⟨row, _, hstamp, _⟩ := logChanges_inserted_mem nk asof cs
        (prefillCache nk target) source hcols
      show dfind rec.cols "SysEndDate" = some enddate
      rw [hstamp, dfind_stamp_end]
  · intro r hr hnot
    rw [runTT_final_eq]
    unfold setAsObsolete
    refine List.mem_map.mpr ⟨r, List.mem_append.mpr (Or.inl hr), ?_⟩
    rw [if_neg hnot]

/-- C10, witness: a concrete run with one Modified row, one unseen key and
one New key. -/
theorem c10_witness :
    (∀ r ∈ [VRecord.mk 1 [("k", "A"), ("p", "x"),
        ("SysStartDate", "2020-01-01"), ("SysEndDate", "2999-12-31")],
      VRecord.mk 2 [("k", "B"), ("p", "z"),
        ("SysStartDate", "2020-01-01"), ("SysEndDate", "2999-12-31")]],
      r.id < 5) ∧
    ((∀ i ∈ (runTT ["k"] "2024-01-01" 5000 true 5
        [VRecord.mk 1 [("k", "A"), ("p", "x"),
          ("SysStartDate", "2020-01-01"), ("SysEndDate", "2999-12-31")],
         VRecord.mk 2 [("k", "B"), ("p", "z"),
          ("SysStartDate", "2020-01-01"), ("SysEndDate", "2999-12-31")]]
        [[("k", "A"), ("p", "x2")], [("k", "C"), ("p", "w")]]).closeIds,
      ∃ k, dfind (runTT ["k"] "2024-01-01" 5000 true 5
        [VRecord.mk 1 [("k", "A"), ("p", "x"),
          ("SysStartDate", "2020-01-01"), ("SysEndDate", "2999-12-31")],
         VRecord.mk 2 [("k", "B"), ("p", "z"),
          ("SysStartDate", "2020-01-01"), ("SysEndDate", "2999-12-31")]]
        [[("k", "A"), ("p", "x2")],
         [("k", "C"), ("p", "w")]]).caches.idcache k = some i) ∧
    (∀ rec ∈ (runTT ["k"] "2024-01-01" 5000 true 5
        [VRecord.mk 1 [("k", "A"), ("p", "x"),
          ("SysStartDate", "2020-01-01"), ("SysEndDate", "2999-12-31")],
         VRecord.mk 2 [("k", "B"), ("p", "z"),
          ("SysStartDate", "2020-01-01"), ("SysEndDate", "2999-12-31")]]
        [[("k", "A"), ("p", "x2")],
         [("k", "C"), ("p", "w")]]).insertedRecords,
      rec ∈ (runTT ["k"] "2024-01-01" 5000 true 5
        [VRecord.mk 1 [("k", "A"), ("p", "x"),
          ("SysStartDate", "2020-01-01"), ("SysEndDate", "2999-12-31")],
         VRecord.mk 2 [("k", "B"), ("p", "z"),
          ("SysStartDate", "2020-01-01"), ("SysEndDate", "2999-12-31")]]
        [[("k", "A"), ("p", "x2")],
         [("k", "C"), ("p", "w")]]).finalTarget ∧ rec.isCurrent) ∧
    (∀ r ∈ [VRecord.mk 1 [("k", "A"), ("p", "x"),
        ("SysStartDate", "2020-01-01"), ("SysEndDate", "2999-12-31")],
      VRecord.mk 2 [("k", "B"), ("p", "z"),
        ("SysStartDate", "2020-01-01"), ("SysEndDate", "2999-12-31")]],
      r.id ∉ (runTT ["k"] "2024-01-01" 5000 true 5
        [VRecord.mk 1 [("k", "A"), ("p", "x"),
          ("SysStartDate", "2020-01-01"), ("SysEndDate", "2999-12-31")],
         VRecord.mk 2 [("k", "B"), ("p", "z"),
          ("SysStartDate", "2020-01-01"), ("SysEndDate", "2999-12-31")]]
        [[("k", "A"), ("p", "x2")], [("k", "C"), ("p", "w")]]).closeIds →
      r ∈ (runTT ["k"] "2024-01-01" 5000 true 5
        [VRecord.mk 1 [("k", "A"), ("p", "x"),
          ("SysStartDate", "2020-01-01"), ("SysEndDate", "2999-12-31")],
         VRecord.mk 2 [("k", "B"), ("p", "z"),
          ("SysStartDate", "2020-01-01"), ("SysEndDate", "2999-12-31")]]
        [[("k", "A"), ("p", "x2")],
         [("k", "C"), ("p", "w")]]).finalTarget)) :=
  ⟨by decide,
    c10_sweep_frame ["k"] "2024-01-01" 5000 true 5
      [VRecord.mk 1 [("k", "A"), ("p", "x"),
        ("SysStartDate", "2020-01-01"), ("SysEndDate", "2999-12-31")],
       VRecord.mk 2 [("k", "B"), ("p", "z"),
        ("SysStartDate", "2020-01-01"), ("SysEndDate", "2999-12-31")]]
      [[("k", "A"), ("p", "x2")], [("k", "C"), ("p", "w")]]
      (by decide)⟩

/-- Instance of the sorted-keys order-invariance lemma: two rows with the
same payload bindings in different orders and different `id` /
`SysStartDate` values hash identically under the `src/ttable.py`
digest. -/
theorem rowHash_order_invariance_example :
    (dkeys ([("b", "y"), ("a", "x"), ("id", "5")] : Row)).Nodup ∧
    (dkeys ([("id", "7"), ("SysStartDate", "2020-01-01"), ("a", "x"),
      ("b", "y")] : Row)).Nodup ∧
    (([("b", "y"), ("a", "x"), ("id", "5")] : Row).filter
      (fun p => decide (p.1 ∉ sysCols))).Perm
      (([("id", "7"), ("SysStartDate", "2020-01-01"), ("a", "x"),
        ("b", "y")] : Row).filter (fun p => decide (p.1 ∉ sysCols))) ∧
    rowHash [("b", "y"), ("a", "x"), ("id", "5")] =
      rowHash [("id", "7"), ("SysStartDate", "2020-01-01"), ("a", "x"),
        ("b", "y")] :=
  ⟨by decide, by decide, by decide,
    rowHash_ignores_order_and_system_columns
      [("b", "y"), ("a", "x"), ("id", "5")]
      [("id", "7"), ("SysStartDate", "2020-01-01"), ("a", "x"), ("b", "y")]
      (by decide) (by decide) (by decide)⟩

/-- C7: the row hash of `src/luigi/ttable.py` is not invariant under the
row's presentation order.  Its `_hash` iterates `set(row.keys())`, and
CPython derives that iteration order from the key set, the insertion
order (the row's presentation order: under a hash-table collision the
first-inserted key is yielded first) and the per-process hash seed — so
for one and the same column-to-value mapping the two presentations below
can realize the two opposite iteration orders (each a permutation of the
respective row's keys) and produce different digest inputs, hence
different digests, and digest equality is not deterministic across runs.
The sorted-order hash of `src/ttable.py` gives both presentations the
same digest, as the claim demands (proved in general in
`rowHash_ignores_order_and_system_columns`). -/
theorem c7_luigi_hash_order_dependent :
    (([("a", "x"), ("b", "y")] : Row).filter
      (fun p => decide (p.1 ∉ sysCols))).Perm
      (([("b", "y"), ("a", "x")] : Row).filter
        (fun p => decide (p.1 ∉ sysCols))) ∧
    ["a", "b"].Perm (dkeys ([("a", "x"), ("b", "y")] : Row)) ∧
    ["b", "a"].Perm (dkeys ([("b", "y"), ("a", "x")] : Row)) ∧
    luigiRowHash ["a", "b"] [("a", "x"), ("b", "y")] ≠
      luigiRowHash ["b", "a"] [("b", "y"), ("a", "x")] ∧
    rowHash [("a", "x"), ("b", "y")] =
      rowHash [("b", "y"), ("a", "x")] := by decide

end TTable
